import Mathlib

/-!
Verification of the iphoneclaw decision/control pipeline.

The Python sources are shallowly embedded: each Lean definition mirrors one
Python function of the repository (the mirrored file and lines are named in
its doc comment).  Strings are modelled as `List Char` where character-level
scanning matters; Python `str` helpers (`strip`, `split`, ...) are
re-implemented over that model with the exact semantics the mirrored code
relies on.  Definitions marked "Modelled from the spec" are the spec-side
counterpart of a refinement theorem, written from the specification's words
rather than from the code.
-/

namespace IphoneClaw

/-! ## Conversation window (iphoneclaw/agent/conversation.py) -/

/-- One entry of the conversation log (`ConversationItem` in conversation.py).
Timestamp and metadata fields are omitted: no operation mirrored here reads
them. -/
structure ConvItem where
  role : String
  text : String
deriving Repr, DecidableEq

/-- Inner step of `ConversationStore.trim_tail_rounds` (conversation.py lines
122-125): after the assistant item at index `i` is deleted, the item right
before it (the head of the reversed remainder) is deleted too when its role is
"user". -/
def dropUserHead : List ConvItem → List ConvItem
  | [] => []
  | u :: rest2 => if u.role = "user" then rest2 else u :: rest2

/-- Mirror of the `while` loop of `ConversationStore.trim_tail_rounds`
(conversation.py lines 115-127), expressed on the reversed item list: walking
from the most recent item, each assistant item is deleted together with the
user item immediately preceding it (via `dropUserHead`), until `n` assistant
items have been deleted; other items are kept. -/
def trimRevAux : Nat → List ConvItem → List ConvItem
  | 0, l => l
  | _ + 1, [] => []
  | n + 1, x :: rest =>
    if x.role = "assistant" then trimRevAux n (dropUserHead rest)
    else x :: trimRevAux (n + 1) rest

/-- `ConversationStore.trim_tail_rounds` (conversation.py lines 102-128): the
resulting item list.  A non-positive `drop_rounds` leaves the log unchanged,
which the `Nat` argument captures. -/
def trim_tail_rounds (n : Nat) (items : List ConvItem) : List ConvItem :=
  (trimRevAux n items.reverse).reverse

/-- Modelled from the spec ("remove the n most recent assistant turns and, for
each, its immediately preceding user turn if present"): remove one round, on
the reversed list — drop the first assistant item found and, when the item
right before it (next in reversed order) is a user item, drop that too. -/
def dropLastRoundRev : List ConvItem → List ConvItem
  | [] => []
  | x :: rest =>
    if x.role = "assistant" then dropUserHead rest
    else x :: dropLastRoundRev rest

/-- Modelled from the spec: remove the single most recent round (most recent
assistant item plus its immediately preceding user item when present). -/
def dropLastRound (items : List ConvItem) : List ConvItem :=
  (dropLastRoundRev items.reverse).reverse

/-- Number of assistant items (rounds) in a log. -/
def countAssistant (items : List ConvItem) : Nat :=
  items.countP (fun it => it.role = "assistant")

theorem trimRevAux_nil (n : Nat) : trimRevAux n [] = [] := by
  cases n <;> simp [trimRevAux]

theorem trimRevAux_zero (l : List ConvItem) : trimRevAux 0 l = l := by
  simp [trimRevAux]

theorem trimRevAux_succ (l : List ConvItem) (n : Nat) :
    trimRevAux (n + 1) l = trimRevAux n (dropLastRoundRev l) := by
  induction l generalizing n with
  | nil => simp [trimRevAux_nil, dropLastRoundRev]
  | cons x rest ih =>
    by_cases hx : x.role = "assistant"
    · simp [trimRevAux, dropLastRoundRev, hx]
    · simp only [trimRevAux, dropLastRoundRev, if_neg hx]
      cases n with
      | zero =>
        have h := ih 0
        rw [trimRevAux_zero] at h
        rw [trimRevAux_zero, h]
      | succ m =>
        have hstep : trimRevAux (m + 1) (x :: dropLastRoundRev rest) =
            x :: trimRevAux (m + 1) (dropLastRoundRev rest) := by
          simp [trimRevAux, hx]
        rw [hstep]
        exact congrArg (x :: ·) (ih (m + 1))

/-- The single-pass implementation equals `n` iterations of the spec-side
single-round removal. -/
theorem trim_eq_iterate (n : Nat) (items : List ConvItem) :
    trim_tail_rounds n items = dropLastRound^[n] items := by
  induction n generalizing items with
  | zero => simp [trim_tail_rounds, trimRevAux]
  | succ m ih =>
    have h1 : trim_tail_rounds (m + 1) items = trim_tail_rounds m (dropLastRound items) := by
      unfold trim_tail_rounds dropLastRound
      rw [trimRevAux_succ, List.reverse_reverse]
    rw [h1, ih, Function.iterate_succ_apply]

theorem dropUserHead_filter_system (l : List ConvItem) :
    (dropUserHead l).filter (fun it => it.role = "system") =
      l.filter (fun it => it.role = "system") := by
  cases l with
  | nil => rfl
  | cons u rest2 =>
    by_cases hu : u.role = "user"
    · have hus : decide (u.role = "system") = false := by
        rw [hu]; decide
      simp [dropUserHead, hu, List.filter_cons, hus]
    · simp [dropUserHead, hu]

theorem dropLastRoundRev_filter_system (l : List ConvItem) :
    (dropLastRoundRev l).filter (fun it => it.role = "system") =
      l.filter (fun it => it.role = "system") := by
  induction l with
  | nil => rfl
  | cons x rest ih =>
    by_cases hx : x.role = "assistant"
    · have hxs : decide (x.role = "system") = false := by
        rw [hx]; decide
      simp [dropLastRoundRev, hx, List.filter_cons, hxs, dropUserHead_filter_system]
    · simp only [dropLastRoundRev, if_neg hx]
      simp [List.filter_cons, ih]

theorem dropLastRound_filter_system (items : List ConvItem) :
    (dropLastRound items).filter (fun it => it.role = "system") =
      items.filter (fun it => it.role = "system") := by
  unfold dropLastRound
  have h := dropLastRoundRev_filter_system items.reverse
  rw [List.filter_reverse] at h
  calc (dropLastRoundRev items.reverse).reverse.filter (fun it => it.role = "system")
      = ((dropLastRoundRev items.reverse).filter (fun it => it.role = "system")).reverse := by
        rw [List.filter_reverse]
    _ = items.filter (fun it => it.role = "system") := by
        rw [h, List.reverse_reverse]

theorem countAssistant_cons (x : ConvItem) (rest : List ConvItem) :
    countAssistant (x :: rest) =
      countAssistant rest + (if x.role = "assistant" then 1 else 0) := by
  simp [countAssistant, List.countP_cons]

theorem dropUserHead_countAssistant (l : List ConvItem) :
    countAssistant (dropUserHead l) = countAssistant l ∨ dropUserHead l = l := by
  cases l with
  | nil => exact Or.inr rfl
  | cons u rest2 =>
    by_cases hu : u.role = "user"
    · left
      have hua : ¬ (u.role = "assistant") := by rw [hu]; decide
      simp [dropUserHead, hu, countAssistant_cons, hua]
    · exact Or.inr (by simp [dropUserHead, hu])

theorem dropLastRoundRev_countAssistant (l : List ConvItem) :
    countAssistant (dropLastRoundRev l) = countAssistant l - 1 := by
  induction l with
  | nil => rfl
  | cons x rest ih =>
    by_cases hx : x.role = "assistant"
    · have hcnt : countAssistant (dropUserHead rest) = countAssistant rest := by
        rcases dropUserHead_countAssistant rest with h | h
        · exact h
        · rw [h]
      simp only [dropLastRoundRev, if_pos hx, countAssistant_cons, hx, if_true, hcnt]
      omega
    · simp only [dropLastRoundRev, if_neg hx, countAssistant_cons, hx, if_false]
      omega

theorem countAssistant_reverse (l : List ConvItem) :
    countAssistant l.reverse = countAssistant l := by
  simp [countAssistant]

theorem dropLastRound_countAssistant (items : List ConvItem) :
    countAssistant (dropLastRound items) = countAssistant items - 1 := by
  unfold dropLastRound
  rw [countAssistant_reverse, dropLastRoundRev_countAssistant, countAssistant_reverse]

theorem trim_countAssistant (n : Nat) (items : List ConvItem) :
    countAssistant (trim_tail_rounds n items) = countAssistant items - n := by
  rw [trim_eq_iterate]
  induction n generalizing items with
  | zero => simp
  | succ m ih =>
    rw [Function.iterate_succ_apply, ih, dropLastRound_countAssistant]
    omega

theorem trim_filter_system (n : Nat) (items : List ConvItem) :
    (trim_tail_rounds n items).filter (fun it => it.role = "system") =
      items.filter (fun it => it.role = "system") := by
  rw [trim_eq_iterate]
  induction n generalizing items with
  | zero => simp
  | succ m ih =>
    rw [Function.iterate_succ_apply, ih, dropLastRound_filter_system]

/-- Claim C3: for a log with at least `n` assistant rounds, trimming `n`
rounds removes exactly the `n` most recent assistant items plus, for each,
the user item immediately preceding it when present (the implementation
equals `n` iterations of the spec-side single-round removal, which leaves all
earlier items untouched), it never removes a system item, and exactly `n`
assistant items disappear. -/
theorem claim_C3_trim_tail_rounds (items : List ConvItem) (n : Nat)
    (h : n ≤ countAssistant items) :
    trim_tail_rounds n items = dropLastRound^[n] items ∧
    (trim_tail_rounds n items).filter (fun it => it.role = "system") =
      items.filter (fun it => it.role = "system") ∧
    countAssistant (trim_tail_rounds n items) = countAssistant items - n :=
  ⟨trim_eq_iterate n items, trim_filter_system n items, trim_countAssistant n items⟩

theorem claim_C3_trim_tail_rounds_witness :
    (1 ≤ countAssistant
      [⟨"system", "s"⟩, ⟨"user", "u1"⟩, ⟨"assistant", "a1"⟩,
       ⟨"user", "u2"⟩, ⟨"assistant", "a2"⟩]) ∧
    (trim_tail_rounds 1
        [⟨"system", "s"⟩, ⟨"user", "u1"⟩, ⟨"assistant", "a1"⟩,
         ⟨"user", "u2"⟩, ⟨"assistant", "a2"⟩] =
      dropLastRound^[1]
        [⟨"system", "s"⟩, ⟨"user", "u1"⟩, ⟨"assistant", "a1"⟩,
         ⟨"user", "u2"⟩, ⟨"assistant", "a2"⟩] ∧
     (trim_tail_rounds 1
        [⟨"system", "s"⟩, ⟨"user", "u1"⟩, ⟨"assistant", "a1"⟩,
         ⟨"user", "u2"⟩, ⟨"assistant", "a2"⟩]).filter (fun it => it.role = "system") =
      ([⟨"system", "s"⟩, ⟨"user", "u1"⟩, ⟨"assistant", "a1"⟩,
        ⟨"user", "u2"⟩, ⟨"assistant", "a2"⟩] : List ConvItem).filter
          (fun it => it.role = "system") ∧
     countAssistant (trim_tail_rounds 1
        [⟨"system", "s"⟩, ⟨"user", "u1"⟩, ⟨"assistant", "a1"⟩,
         ⟨"user", "u2"⟩, ⟨"assistant", "a2"⟩]) =
      countAssistant
        [⟨"system", "s"⟩, ⟨"user", "u1"⟩, ⟨"assistant", "a1"⟩,
         ⟨"user", "u2"⟩, ⟨"assistant", "a2"⟩] - 1) :=
  ⟨by decide,
   claim_C3_trim_tail_rounds
     [⟨"system", "s"⟩, ⟨"user", "u1"⟩, ⟨"assistant", "a1"⟩,
      ⟨"user", "u2"⟩, ⟨"assistant", "a2"⟩] 1 (by decide)⟩

/-! ## Generic run-length helpers (used for streak characterizations) -/

/-- Length of the maximal prefix of `l` whose elements all equal `a`. -/
def runFrom {α : Type} [DecidableEq α] (a : α) : List α → Nat
  | [] => 0
  | b :: rest => if b = a then runFrom a rest + 1 else 0

/-- Length of the maximal constant prefix of `l`. -/
def headRun {α : Type} [DecidableEq α] : List α → Nat
  | [] => 0
  | a :: rest => runFrom a rest + 1

/-- Length of the maximal constant suffix of `l`. -/
def suffixRun {α : Type} [DecidableEq α] (l : List α) : Nat :=
  headRun l.reverse

theorem runFrom_ge_iff {α : Type} [DecidableEq α] (a : α) (T : Nat) (m : List α) :
    T ≤ runFrom a m ↔ ∃ suf, m = List.replicate T a ++ suf := by
  induction T generalizing m with
  | zero => simp
  | succ S ih =>
    cases m with
    | nil =>
      simp only [runFrom, List.replicate_succ]
      constructor
      · omega
      · rintro ⟨suf, h⟩; cases h
    | cons b rest =>
      by_cases hb : b = a
      · subst hb
        simp only [runFrom, eq_self_iff_true, if_true, List.replicate_succ]
        constructor
        · intro h
          obtain ⟨suf, hs⟩ := (ih rest).mp (by omega)
          exact ⟨suf, by rw [hs]; simp⟩
        · rintro ⟨suf, hs⟩
          simp only [List.cons_append, List.cons.injEq] at hs
          have := (ih rest).mpr ⟨suf, hs.2⟩
          omega
      · simp only [runFrom, if_neg hb, List.replicate_succ]
        constructor
        · omega
        · rintro ⟨suf, hs⟩
          simp only [List.cons_append, List.cons.injEq] at hs
          exact absurd hs.1 hb

theorem suffixRun_ge_iff {α : Type} [DecidableEq α] (T : Nat) (hT : 0 < T) (l : List α) :
    T ≤ suffixRun l ↔ ∃ pre c, l = pre ++ List.replicate T c := by
  obtain ⟨S, rfl⟩ : ∃ S, T = S + 1 := ⟨T - 1, by omega⟩
  unfold suffixRun
  cases hrev : l.reverse with
  | nil =>
    have : l = [] := by
      have := congrArg List.reverse hrev
      simpa using this
    subst this
    simp only [headRun]
    constructor
    · omega
    · rintro ⟨pre, c, h⟩
      exact absurd h.symm (by simp [List.replicate_succ, List.append_assoc])
  | cons a rest =>
    have hl : l = rest.reverse ++ [a] := by
      have := congrArg List.reverse hrev
      simpa using this
    simp only [headRun]
    constructor
    · intro h
      obtain ⟨suf, hs⟩ := (runFrom_ge_iff a S rest).mp (by omega)
      refine ⟨suf.reverse, a, ?_⟩
      rw [hl, hs]
      simp [List.replicate_succ', List.reverse_replicate, List.append_assoc]
    · rintro ⟨pre, c, h⟩
      have hrv : a :: rest = List.replicate (S + 1) c ++ pre.reverse := by
        rw [← hrev, h]
        simp [List.reverse_replicate]
      rw [List.replicate_succ] at hrv
      simp only [List.cons_append, List.cons.injEq] at hrv
      obtain ⟨rfl, hrest⟩ := hrv
      have : S ≤ runFrom a rest := (runFrom_ge_iff a S rest).mpr ⟨pre.reverse, hrest⟩
      omega

theorem suffixRun_concat {α : Type} [DecidableEq α] (l : List α) (a : α) :
    suffixRun (l ++ [a]) =
      (if l.reverse.head? = some a then suffixRun l + 1 else 1) := by
  unfold suffixRun
  rw [List.reverse_append]
  cases hrev : l.reverse with
  | nil => simp [headRun, runFrom]
  | cons c m =>
    simp only [List.cons_append, List.nil_append, headRun, List.head?_cons, runFrom]
    by_cases hc : c = a
    · subst hc
      simp [runFrom]
    · have h2 : ¬ (some c = some a) := by simpa using hc
      simp [runFrom, hc, h2]

/-! ## Loop status and streak trackers (iphoneclaw/agent/loop.py) -/

/-- Mirror of `StatusEnum` (iphoneclaw/types.py lines 8-16). -/
inductive StatusEnum
  | INIT
  | RUNNING
  | PAUSE
  | HANG
  | END
  | CALL_USER
  | USER_STOPPED
  | ERROR
deriving Repr, DecidableEq

/-- Repeated-action tracker state: `repeat_streak` and `last_sig` of
`Worker.run` (loop.py lines 144-145).  Signatures are modelled as the action
signature strings built at loop.py lines 236 and 430. -/
structure RepeatTracker where
  streak : Nat
  last : List Char
deriving Repr, DecidableEq

/-- Mirror of the signature-streak update executed after every executed action
(loop.py lines 236-242 for cache replays and 430-436 for live actions; the two
sites are verbatim copies). -/
def updateRepeat (st : RepeatTracker) (sig : List Char) : RepeatTracker :=
  if sig = st.last then { streak := st.streak + 1, last := st.last }
  else { streak := 1, last := sig }

/-- The tracker state after a run has executed actions with the given
signature sequence, starting from `repeat_streak = 0`, `last_sig = ""`
(loop.py lines 144-145). -/
def runRepeat (sigs : List (List Char)) : RepeatTracker :=
  sigs.foldl updateRepeat { streak := 0, last := [] }

theorem runRepeat_characterization (sigs : List (List Char)) :
    runRepeat sigs = { streak := suffixRun sigs, last := sigs.reverse.head?.getD [] } := by
  induction sigs using List.reverseRecOn with
  | nil => rfl
  | append_singleton l a ih =>
    unfold runRepeat at *
    rw [List.foldl_append, ih]
    simp only [List.foldl_cons, List.foldl_nil]
    rw [suffixRun_concat]
    unfold updateRepeat
    cases hrev : l.reverse with
    | nil =>
      have : l = [] := by
        have := congrArg List.reverse hrev
        simpa using this
      subst this
      simp only [List.head?_nil, Option.getD_none]
      by_cases ha : a = ([] : List Char) <;> simp [ha, suffixRun, headRun, runFrom]
    | cons c m =>
      simp only [List.head?_cons, Option.getD_some]
      by_cases hca : c = a
      · subst hca
        simp [List.reverse_append, hrev]
      · have h1 : ¬ (a = c) := fun h => hca h.symm
        have h2 : ¬ (List.head? (c :: m) = some a) := by simpa using hca
        simp only [List.head?_cons] at h2
        simp [h1, List.reverse_append, hrev, h2]

/-- Claim C4: the repeat-action streak counter equals 1 right after any action
whose signature differs from the previous action's signature, and it reaches a
configured threshold `T ≥ 1` exactly when the most recent `T` executed actions
have identical signatures. -/
theorem claim_C4_repeat_streak (T : Nat) (hT : 0 < T) :
    (∀ (pre : List (List Char)) (a b : List Char),
        a ≠ b → (runRepeat (pre ++ [a, b])).streak = 1) ∧
    (∀ sigs : List (List Char),
        T ≤ (runRepeat sigs).streak ↔ ∃ pre c, sigs = pre ++ List.replicate T c) := by
  constructor
  · intro pre a b hab
    rw [show pre ++ [a, b] = (pre ++ [a]) ++ [b] by simp]
    rw [runRepeat_characterization]
    simp only
    rw [suffixRun_concat]
    have : (pre ++ [a]).reverse.head? = some a := by simp
    rw [this]
    simp only [Option.some.injEq]
    rw [if_neg hab]
  · intro sigs
    rw [runRepeat_characterization]
    exact suffixRun_ge_iff T hT sigs

theorem claim_C4_repeat_streak_witness :
    (runRepeat ([] ++ ["click(1)".toList, "swipe(2)".toList])).streak = 1 ∧
    4 ≤ (runRepeat (["click(1)".toList] ++ List.replicate 4 "swipe(2)".toList)).streak :=
  ⟨(claim_C4_repeat_streak 4 (by decide)).1 [] "click(1)".toList "swipe(2)".toList
      (by decide),
   ((claim_C4_repeat_streak 4 (by decide)).2
      (["click(1)".toList] ++ List.replicate 4 "swipe(2)".toList)).mpr
     ⟨["click(1)".toList], "swipe(2)".toList, rfl⟩⟩

/-- Parse-error streak state of `Worker.run`: `parse_err_streak` (loop.py line
142) together with the control status and the reason published on a hang. -/
structure ParseGuard where
  streak : Nat
  status : StatusEnum
  reason : Option String
deriving Repr, DecidableEq

/-- Initial guard state when the loop enters `RUNNING` (loop.py lines 83 and
142). -/
def initParseGuard : ParseGuard :=
  { streak := 0, status := StatusEnum.RUNNING, reason := none }

/-- Mirror of loop.py lines 363-375 for one live step: `hasNonError` is
whether the step's parsed predictions contained at least one action that is
not `error_env`.  A step with only errors increments the streak and, at 3,
sets `HANG` with reason `parse_error_streak`; any other step resets the
streak to 0. -/
def parseGuardStep (st : ParseGuard) (hasNonError : Bool) : ParseGuard :=
  if hasNonError then { st with streak := 0 }
  else if 3 ≤ st.streak + 1 then
    { streak := st.streak + 1, status := StatusEnum.HANG,
      reason := some "parse_error_streak" }
  else { st with streak := st.streak + 1 }

/-- The guard state after a sequence of live steps (`true` = the step parsed
at least one non-error action).  After the `HANG` transition the worker is
paused (loop.py line 371), so later steps do not execute. -/
def runParseGuard (st : ParseGuard) : List Bool → ParseGuard
  | [] => st
  | b :: rest =>
    if st.status = StatusEnum.HANG then st
    else runParseGuard (parseGuardStep st b) rest

/-- Three consecutive all-error steps occur somewhere in the step sequence. -/
def threeErrorSteps (steps : List Bool) : Prop :=
  ∃ pre suf, steps = pre ++ [false, false, false] ++ suf

/-- Length of the trailing run of all-error steps. -/
def countTrailFalse (steps : List Bool) : Nat :=
  runFrom false steps.reverse

theorem runParseGuard_hang (st : ParseGuard) (hst : st.status = StatusEnum.HANG)
    (l : List Bool) : runParseGuard st l = st := by
  cases l with
  | nil => rfl
  | cons b rest => simp [runParseGuard, hst]

theorem runParseGuard_concat (st : ParseGuard) (l : List Bool) (b : Bool) :
    runParseGuard st (l ++ [b]) =
      (if (runParseGuard st l).status = StatusEnum.HANG then runParseGuard st l
       else parseGuardStep (runParseGuard st l) b) := by
  induction l generalizing st with
  | nil => simp [runParseGuard]
  | cons a l' ih =>
    by_cases hst : st.status = StatusEnum.HANG
    · simp [runParseGuard, hst, runParseGuard_hang st hst]
    · simp only [List.cons_append, runParseGuard, if_neg hst]
      exact ih (parseGuardStep st a)

theorem parseGuardStep_false (st : ParseGuard) :
    parseGuardStep st false =
      (if 3 ≤ st.streak + 1 then
        ⟨st.streak + 1, StatusEnum.HANG, some "parse_error_streak"⟩
      else ⟨st.streak + 1, st.status, st.reason⟩) := by
  unfold parseGuardStep
  simp only [Bool.false_eq_true, if_false]

theorem parseGuardStep_true (st : ParseGuard) :
    parseGuardStep st true = ⟨0, st.status, st.reason⟩ := by
  unfold parseGuardStep
  simp

theorem runParseGuard_cons (st : ParseGuard) (hne : st.status ≠ StatusEnum.HANG)
    (b : Bool) (rest : List Bool) :
    runParseGuard st (b :: rest) = runParseGuard (parseGuardStep st b) rest := by
  simp [runParseGuard, hne]

theorem runParseGuard_triple (st : ParseGuard) (hst : st.status = StatusEnum.RUNNING)
    (suf : List Bool) :
    (runParseGuard st ([false, false, false] ++ suf)).status = StatusEnum.HANG ∧
    (runParseGuard st ([false, false, false] ++ suf)).reason =
      some "parse_error_streak" := by
  have hne : st.status ≠ StatusEnum.HANG := by rw [hst]; decide
  rw [List.cons_append, runParseGuard_cons st hne]
  by_cases h1 : 3 ≤ st.streak + 1
  · rw [parseGuardStep_false, if_pos h1]
    rw [runParseGuard_hang _ rfl]
    exact ⟨rfl, rfl⟩
  · rw [parseGuardStep_false, if_neg h1]
    rw [List.cons_append, runParseGuard_cons _ (by rw [hst]; decide)]
    by_cases h2 : 3 ≤ st.streak + 1 + 1
    · rw [parseGuardStep_false, if_pos (by dsimp only; omega)]
      rw [runParseGuard_hang _ rfl]
      exact ⟨rfl, rfl⟩
    · rw [parseGuardStep_false, if_neg (by dsimp only; omega)]
      dsimp only
      rw [List.cons_append, List.nil_append, runParseGuard_cons _ (by rw [hst]; decide)]
      rw [parseGuardStep_false, if_pos (by dsimp only; omega)]
      rw [runParseGuard_hang _ rfl]
      exact ⟨rfl, rfl⟩

theorem runParseGuard_hang_anywhere (pre : List Bool) (st : ParseGuard)
    (hst : st.status = StatusEnum.RUNNING) (suf : List Bool) :
    (runParseGuard st (pre ++ [false, false, false] ++ suf)).status = StatusEnum.HANG ∧
    (runParseGuard st (pre ++ [false, false, false] ++ suf)).reason =
      some "parse_error_streak" := by
  induction pre generalizing st with
  | nil => exact runParseGuard_triple st hst suf
  | cons b pre' ih =>
    have hne : st.status ≠ StatusEnum.HANG := by rw [hst]; decide
    rw [List.append_assoc, List.cons_append, runParseGuard_cons st hne,
      ← List.append_assoc]
    cases b with
    | true =>
      rw [parseGuardStep_true]
      exact ih _ hst
    | false =>
      rw [parseGuardStep_false]
      by_cases h1 : 3 ≤ st.streak + 1
      · rw [if_pos h1, runParseGuard_hang _ rfl]
        exact ⟨rfl, rfl⟩
      · rw [if_neg h1]
        exact ih _ hst

theorem countTrailFalse_concat_true (l : List Bool) :
    countTrailFalse (l ++ [true]) = 0 := by
  unfold countTrailFalse
  rw [List.reverse_append]
  simp [runFrom]

theorem countTrailFalse_concat_false (l : List Bool) :
    countTrailFalse (l ++ [false]) = countTrailFalse l + 1 := by
  unfold countTrailFalse
  rw [List.reverse_append]
  simp [runFrom]

theorem countTrailFalse_two (l : List Bool) (h : 2 ≤ countTrailFalse l) :
    ∃ pre, l = pre ++ [false, false] := by
  unfold countTrailFalse at h
  obtain ⟨suf, hs⟩ := (runFrom_ge_iff false 2 l.reverse).mp h
  refine ⟨suf.reverse, ?_⟩
  have := congrArg List.reverse hs
  simpa using this

theorem threeErrorSteps_concat (l : List Bool) (b : Bool)
    (h : threeErrorSteps l) : threeErrorSteps (l ++ [b]) := by
  obtain ⟨pre, suf, rfl⟩ := h
  exact ⟨pre, suf ++ [b], by simp⟩

theorem runParseGuard_no_triple (steps : List Bool) (h : ¬ threeErrorSteps steps) :
    runParseGuard initParseGuard steps =
      ⟨countTrailFalse steps, StatusEnum.RUNNING, none⟩ := by
  induction steps using List.reverseRecOn with
  | nil => rfl
  | append_singleton l b ih =>
    have hl : ¬ threeErrorSteps l := fun hl => h (threeErrorSteps_concat l b hl)
    rw [runParseGuard_concat, ih hl]
    simp only
    rw [if_neg (by decide)]
    cases b with
    | true =>
      rw [parseGuardStep_true, countTrailFalse_concat_true]
    | false =>
      rw [parseGuardStep_false]
      simp only
      by_cases h3 : 3 ≤ countTrailFalse l + 1
      · exfalso
        obtain ⟨pre, hpre⟩ := countTrailFalse_two l (by omega)
        exact h ⟨pre, [], by rw [hpre]; simp⟩
      · rw [if_neg h3, countTrailFalse_concat_false]

/-- Claim C6: starting from `RUNNING`, three consecutive live steps whose
parsed actions are all `error_env` transition the control status to `HANG`
with reason `parse_error_streak`; the status is `HANG` exactly when three
consecutive all-error steps occur, fewer consecutive all-error steps leave the
status `RUNNING`, and the streak counter resets to the trailing all-error run
length (0 after any step with a non-error action). -/
theorem claim_C6_parse_error_streak (steps : List Bool) :
    ((runParseGuard initParseGuard steps).status = StatusEnum.HANG ↔
      threeErrorSteps steps) ∧
    ((runParseGuard initParseGuard steps).status = StatusEnum.HANG →
      (runParseGuard initParseGuard steps).reason = some "parse_error_streak") ∧
    (¬ threeErrorSteps steps →
      runParseGuard initParseGuard steps =
        ⟨countTrailFalse steps, StatusEnum.RUNNING, none⟩) := by
  refine ⟨⟨?_, ?_⟩, ?_, runParseGuard_no_triple steps⟩
  · intro hh
    by_contra hnt
    rw [runParseGuard_no_triple steps hnt] at hh
    simp at hh
  · intro ht
    obtain ⟨pre, suf, rfl⟩ := ht
    exact (runParseGuard_hang_anywhere pre initParseGuard rfl suf).1
  · intro hh
    by_cases ht : threeErrorSteps steps
    · obtain ⟨pre, suf, rfl⟩ := ht
      exact (runParseGuard_hang_anywhere pre initParseGuard rfl suf).2
    · rw [runParseGuard_no_triple steps ht] at hh
      simp at hh

theorem claim_C6_parse_error_streak_witness :
    (runParseGuard initParseGuard [true, false, false, false]).status =
      StatusEnum.HANG :=
  (claim_C6_parse_error_streak [true, false, false, false]).1.mpr
    ⟨[true], [], rfl⟩

/-! ## Python string primitives (model of `str` helpers over `List Char`) -/

/-- Python whitespace (`str.strip`, `\s`) restricted to the ASCII whitespace
characters; the repository's grammars are ASCII. -/
def isPyWs (c : Char) : Bool :=
  c == ' ' || c == '\t' || c == '\n' || c == '\r' || c == '\x0b' || c == '\x0c'

/-- `str.lstrip()`. -/
def lstripWs (l : List Char) : List Char := l.dropWhile isPyWs

/-- `str.rstrip()`. -/
def rstripWs : List Char → List Char
  | [] => []
  | c :: rest =>
    match rstripWs rest with
    | [] => if isPyWs c then [] else [c]
    | d :: r => c :: d :: r

/-- `str.strip()`. -/
def pstrip (l : List Char) : List Char := rstripWs (lstripWs l)

/-- `str.rstrip(".")`. -/
def rstripDot : List Char → List Char
  | [] => []
  | c :: rest =>
    match rstripDot rest with
    | [] => if c == '.' then [] else [c]
    | d :: r => c :: d :: r

/-- Python regex `\w`, restricted to ASCII word characters (the repository's
action names and DSL keywords are ASCII; Python additionally accepts
non-ASCII letters, which this model does not cover). -/
def isWordChar (c : Char) : Bool := c.isAlphanum || c == '_'

/-- Maximal leading `\w` run of a string. -/
def headWordRun (s : List Char) : List Char := s.takeWhile isWordChar

/-! ## Quote/paren aware top-level splitting

`_split_actions` (action_parser.py lines 187-234), `_split_top_level`
(action_script.py lines 42-84) and `_split_args` (action_parser.py lines
77-111) share one scanning discipline: characters are buffered; a quote
character opens a quoted region closed by the same character; `(`/`)` adjust
a depth counter clamped at 0; a separator at depth 0 outside quotes flushes
the stripped buffer (dropping empty parts).  The scanner below is that
discipline with the separator set as a parameter. -/

/-- Flush one buffered part: strip it, drop it when empty
(the `flush()` helpers in the three Python functions). -/
def flushPart (buf : List Char) : List (List Char) :=
  let p := pstrip buf
  if p = [] then [] else [p]

/-- The shared scanner; `seps` are the top-level separator characters. -/
def splitScanAux (seps : List Char) :
    List Char → List Char → Option Char → Nat → List (List Char)
  | [], buf, _, _ => flushPart buf
  | c :: rest, buf, some q, depth =>
    if c == q then splitScanAux seps rest (buf ++ [c]) none depth
    else splitScanAux seps rest (buf ++ [c]) (some q) depth
  | c :: rest, buf, none, depth =>
    if c == '\'' || c == '"' then splitScanAux seps rest (buf ++ [c]) (some c) depth
    else if c == '(' then splitScanAux seps rest (buf ++ [c]) none (depth + 1)
    else if c == ')' then splitScanAux seps rest (buf ++ [c]) none (depth - 1)
    else if depth == 0 && seps.contains c then
      flushPart buf ++ splitScanAux seps rest [] none depth
    else splitScanAux seps rest (buf ++ [c]) none depth

/-- `_split_actions` (action_parser.py lines 187-234): split a multi-action
string on `;`/newline at top level; the final
`[x for x in out if x.strip()]` is mirrored by the trailing filter. -/
def pySplitActions (s : List Char) : List (List Char) :=
  let st := pstrip s
  if st = [] then []
  else (splitScanAux [';', '\n'] st [] none 0).filter (fun x => !(pstrip x).isEmpty)

/-- `_split_args` (action_parser.py lines 77-111): split an argument string on
top-level commas. -/
def splitArgs (s : List Char) : List (List Char) :=
  splitScanAux [','] s [] none 0

/-! ## `Action:` marker handling (action_parser.py lines 10 and 21-53) -/

/-- Marker of `_ACTION_SPLIT_RE = re.compile(r"Action[:：]")`: the literal
`Action` followed by an ASCII or full-width colon (both alternatives are 7
characters long). -/
def isMarkerHead (l : List Char) : Bool :=
  l.take 7 == "Action:".toList || l.take 7 == "Action：".toList

/-- `_ACTION_SPLIT_RE.search`: does the marker occur anywhere? -/
def hasMarker : List Char → Bool
  | [] => false
  | c :: rest => isMarkerHead (c :: rest) || hasMarker rest

/-- `_ACTION_SPLIT_RE.split`: the marker-separated segments, leftmost
non-overlapping (structural recursion on a character-count fuel; each step
consumes at least one character, so the initial fuel `length + 1` is never
exhausted). -/
def splitMarkerF : Nat → List Char → List (List Char)
  | 0, l => [l]
  | _, [] => [[]]
  | fuel + 1, c :: rest =>
    if isMarkerHead (c :: rest) then [] :: splitMarkerF fuel ((c :: rest).drop 7)
    else
      match splitMarkerF fuel rest with
      | [] => [[c]]
      | seg :: segs => (c :: seg) :: segs

/-- `_ACTION_SPLIT_RE.split`. -/
def splitMarker (l : List Char) : List (List Char) :=
  splitMarkerF (l.length + 1) l

/-- The action string extracted by `_extract_thought_reflection_action`
(action_parser.py lines 21-53): the text is stripped; when the marker occurs,
the segment after its last occurrence is taken, else the whole text; the
result is stripped.  The `Thought`/`Reflection`/`Action_Summary` extraction of
lines 32-45 only fills the `thought`/`reflection` metadata copied verbatim
onto every parsed action, which no claim reads, and is omitted from the
model. -/
def extractActionStr (text : List Char) : List Char :=
  let t := pstrip text
  if hasMarker t then pstrip ((splitMarker t).getLast?.getD []) else pstrip t

/-! ## `_preprocess_action` (action_parser.py lines 114-123) -/

/-- `str.replace(pat, rep)`: leftmost non-overlapping replacement
(fuelled structural recursion; fuel `length + 1` is never exhausted). -/
def replaceAllSubF (pat rep : List Char) : Nat → List Char → List Char
  | 0, l => l
  | _, [] => []
  | fuel + 1, c :: rest =>
    if pat ≠ [] ∧ (c :: rest).take pat.length = pat then
      rep ++ replaceAllSubF pat rep fuel ((c :: rest).drop pat.length)
    else c :: replaceAllSubF pat rep fuel rest

/-- `str.replace(pat, rep)`. -/
def replaceAllSub (pat rep : List Char) (l : List Char) : List Char :=
  replaceAllSubF pat rep (l.length + 1) l

/-- After a key pattern: `\s*=` — skip whitespace, demand `=`, return the
remainder. -/
def wsEq (l : List Char) : Option (List Char) :=
  match l.dropWhile isPyWs with
  | '=' :: r2 => some r2
  | _ => none

/-- Match `pat\s*=` at the head of `l`, returning the remainder after the
`=`. -/
def matchKeyEq (pat : List Char) (l : List Char) : Option (List Char) :=
  if l.take pat.length = pat then wsEq (l.drop pat.length) else none

theorem wsEq_length {l r2 : List Char} (h : wsEq l = some r2) :
    r2.length < l.length := by
  have hd : (l.dropWhile isPyWs).length ≤ l.length :=
    (List.dropWhile_sublist (p := isPyWs) (l := l)).length_le
  unfold wsEq at h
  split at h
  next r2' heq =>
    cases h
    rw [heq] at hd
    simp only [List.length_cons] at hd
    omega
  next => cases h

theorem matchKeyEq_length {pat l r : List Char} (hp : pat ≠ [])
    (h : matchKeyEq pat l = some r) : r.length < l.length := by
  unfold matchKeyEq at h
  by_cases ht : l.take pat.length = pat
  · rw [if_pos ht] at h
    have h1 := wsEq_length h
    have h2 : (l.drop pat.length).length ≤ l.length := by
      simp only [List.length_drop]
      omega
    omega
  · rw [if_neg ht] at h
    cases h

/-- `re.sub(pat + r"\s*=", rep, s)` for a literal key `pat` (used for
`start_point`/`end_point` rewriting, action_parser.py lines 119-120);
fuelled structural recursion, fuel `length + 1` is never exhausted. -/
def rewriteKeyEqF (pat rep : List Char) : Nat → List Char → List Char
  | 0, l => l
  | _, [] => []
  | fuel + 1, c :: rest =>
    match matchKeyEq pat (c :: rest) with
    | some r =>
      if pat = [] then c :: rewriteKeyEqF pat rep fuel rest
      else rep ++ rewriteKeyEqF pat rep fuel r
    | none => c :: rewriteKeyEqF pat rep fuel rest

/-- `re.sub(pat + r"\s*=", rep, s)`. -/
def rewriteKeyEq (pat rep : List Char) (l : List Char) : List Char :=
  rewriteKeyEqF pat rep (l.length + 1) l

/-- `re.sub(r"\bpoint\s*=", "start_box=", s)` (action_parser.py line 122):
like `rewriteKeyEq` but demanding a word boundary before `point`; `prev` is
the character before the scan position. -/
def rewritePointAuxF (rep : List Char) : Nat → Option Char → List Char → List Char
  | 0, _, l => l
  | _, _, [] => []
  | fuel + 1, prev, c :: rest =>
    match matchKeyEq "point".toList (c :: rest) with
    | some r =>
      if prev.all (fun p => !isWordChar p) then
        rep ++ rewritePointAuxF rep fuel (some '=') r
      else c :: rewritePointAuxF rep fuel (some c) rest
    | none => c :: rewritePointAuxF rep fuel (some c) rest

/-- See `rewritePointAuxF`; fuel `length + 1` is never exhausted. -/
def rewritePointAux (rep : List Char) (prev : Option Char) (l : List Char) : List Char :=
  rewritePointAuxF rep (l.length + 1) prev l

/-- `_preprocess_action` (action_parser.py lines 114-123): strip, remove
UI-TARS box tags, rewrite `start_point=`/`end_point=`/bare `point=` into
`start_box=`/`end_box=`. -/
def preprocessAction (s0 : List Char) : List Char :=
  let s1 := pstrip s0
  let s2 := replaceAllSub "<|box_start|>".toList [] s1
  let s3 := replaceAllSub "<|box_end|>".toList [] s2
  let s4 := rewriteKeyEq "start_point".toList "start_box=".toList s3
  let s5 := rewriteKeyEq "end_point".toList "end_box=".toList s4
  rewritePointAux "start_box=".toList none s5

/-! ## Python literal values and the strict AST branch of `_parse_action_call`
(action_parser.py lines 126-151)

The code first tries `ast.parse(action_src, mode="eval")` and accepts the
result when it is a plain call `Name(kw=literal, ...)`, evaluating each
keyword value with `ast.literal_eval`; on a parse failure, a non-call shape,
or a non-literal keyword value it falls through to the tolerant fallback of
lines 153-184.  The parser below models that strict branch on the grammar
fragment the repository feeds it: identifier calls whose keyword values are
string/number/bool/None/list/tuple/dict literals (string literals with the
standard escapes; numeric-literal underscores and adjacent-string
concatenation are not modelled — inputs using them fall to the fallback in
the model where Python would accept them, which no claim distinguishes).
Positional arguments are skipped as balanced spans: the code ignores
`node.args` entirely. -/

inductive PyVal where
  | pstr (s : List Char)
  | pint (n : Int)
  | pfloat (q : ℚ)
  | pbool (b : Bool)
  | pnone
  | plist (xs : List PyVal)
  | ptuple (xs : List PyVal)
  | pdict (xs : List (PyVal × PyVal))

/-- Single-character Python string escapes. -/
def escChar (c : Char) : Option Char :=
  if c = 'n' then some '\n'
  else if c = 't' then some '\t'
  else if c = 'r' then some '\r'
  else if c = '\\' then some '\\'
  else if c = '\'' then some '\''
  else if c = '"' then some '"'
  else if c = 'a' then some '\x07'
  else if c = 'b' then some '\x08'
  else if c = 'f' then some '\x0c'
  else if c = 'v' then some '\x0b'
  else if c = '0' then some (Char.ofNat 0)
  else none

def hexDigitVal (c : Char) : Option Nat :=
  if c.isDigit then some (c.toNat - '0'.toNat)
  else if 'a' ≤ c ∧ c ≤ 'f' then some (c.toNat - 'a'.toNat + 10)
  else if 'A' ≤ c ∧ c ≤ 'F' then some (c.toNat - 'A'.toNat + 10)
  else none

/-- Python single-line string-literal body after the opening quote `q`:
returns the decoded content and the remainder after the closing quote.
Unknown escapes keep the backslash; a literal newline fails (single-line
literal). -/
def pyStrLit (q : Char) : List Char → Option (List Char × List Char)
  | [] => none
  | '\\' :: 'x' :: h1 :: h2 :: r =>
    match hexDigitVal h1, hexDigitVal h2 with
    | some a, some b => (pyStrLit q r).map (fun p => (Char.ofNat (16 * a + b) :: p.1, p.2))
    | _, _ => none
  | '\\' :: 'u' :: h1 :: h2 :: h3 :: h4 :: r =>
    match hexDigitVal h1, hexDigitVal h2, hexDigitVal h3, hexDigitVal h4 with
    | some a, some b, some c, some d =>
      (pyStrLit q r).map
        (fun p => (Char.ofNat (((a * 16 + b) * 16 + c) * 16 + d) :: p.1, p.2))
    | _, _, _, _ => none
  | '\\' :: e :: r =>
    match escChar e with
    | some c => (pyStrLit q r).map (fun p => (c :: p.1, p.2))
    | none => (pyStrLit q r).map (fun p => ('\\' :: e :: p.1, p.2))
  | '\\' :: [] => none
  | c :: rest =>
    if c = q then some ([], rest)
    else if c = '\n' then none
    else (pyStrLit q rest).map (fun p => (c :: p.1, p.2))

def natOfDigits (ds : List Char) : Nat :=
  ds.foldl (fun a c => a * 10 + (c.toNat - '0'.toNat)) 0

def takeDigits (l : List Char) : List Char × List Char :=
  (l.takeWhile Char.isDigit, l.dropWhile Char.isDigit)

/-- Python numeric literal with optional sign (as accepted by
`ast.literal_eval`): integer or float with optional fraction and exponent. -/
def pyNumLit (l0 : List Char) : Option (PyVal × List Char) :=
  let (neg, l1) :=
    match l0 with
    | '-' :: r => (true, r)
    | '+' :: r => (false, r)
    | _ => (false, l0)
  let (ds, l2) := takeDigits l1
  let (isFloat1, fs, l3) :=
    match l2 with
    | '.' :: r3 =>
      let (fs, l3) := takeDigits r3
      (true, fs, l3)
    | _ => (false, [], l2)
  if ds = [] ∧ fs = [] then none
  else
    let mant : ℚ := (natOfDigits ds : ℚ) + (natOfDigits fs : ℚ) / (10 : ℚ) ^ fs.length
    let expPart : Option (Bool × List Char × List Char) :=
      match l3 with
      | 'e' :: r4 | 'E' :: r4 =>
        let (eneg, r5) :=
          match r4 with
          | '-' :: r5 => (true, r5)
          | '+' :: r5 => (false, r5)
          | _ => (false, r4)
        let (es, r6) := takeDigits r5
        some (eneg, es, r6)
      | _ => none
    match expPart with
    | some (eneg, es, r6) =>
      if es = [] then none
      else
        let e : ℤ := if eneg then -(natOfDigits es : ℤ) else (natOfDigits es : ℤ)
        let v : ℚ := mant * (10 : ℚ) ^ e
        some (PyVal.pfloat (if neg then -v else v), r6)
    | none =>
      if isFloat1 then
        some (PyVal.pfloat (if neg then -mant else mant), l3)
      else
        some (PyVal.pint (if neg then -(natOfDigits ds : ℤ) else (natOfDigits ds : ℤ)), l3)

mutual

/-- One Python literal (`ast.literal_eval`-acceptable value). -/
def pyLit : Nat → List Char → Option (PyVal × List Char)
  | 0, _ => none
  | fuel + 1, l0 =>
    let l := l0.dropWhile isPyWs
    match l with
    | '\'' :: r => (pyStrLit '\'' r).map (fun p => (PyVal.pstr p.1, p.2))
    | '"' :: r => (pyStrLit '"' r).map (fun p => (PyVal.pstr p.1, p.2))
    | '[' :: r => (pyElems fuel ']' r).map (fun p => (PyVal.plist p.1, p.2))
    | '{' :: r => (pyDictEntries fuel r).map (fun p => (PyVal.pdict p.1, p.2))
    | '(' :: r =>
      let r1 := r.dropWhile isPyWs
      match r1 with
      | ')' :: r2 => some (PyVal.ptuple [], r2)
      | _ =>
        match pyLit fuel r1 with
        | none => none
        | some (v, r2) =>
          let r3 := r2.dropWhile isPyWs
          match r3 with
          | ')' :: r4 => some (v, r4)
          | ',' :: r4 =>
            (pyElems fuel ')' r4).map (fun p => (PyVal.ptuple (v :: p.1), p.2))
          | _ => none
    | _ =>
      let w := headWordRun l
      if w = "True".toList then some (PyVal.pbool true, l.drop 4)
      else if w = "False".toList then some (PyVal.pbool false, l.drop 5)
      else if w = "None".toList then some (PyVal.pnone, l.drop 4)
      else pyNumLit l

/-- Comma-separated literals up to the closing character (with optional
trailing comma). -/
def pyElems : Nat → Char → List Char → Option (List PyVal × List Char)
  | 0, _, _ => none
  | fuel + 1, close, l0 =>
    let l := l0.dropWhile isPyWs
    match l with
    | [] => none
    | c :: rest =>
      if c = close then some ([], rest)
      else
        match pyLit fuel (c :: rest) with
        | none => none
        | some (v, r2) =>
          let r3 := r2.dropWhile isPyWs
          match r3 with
          | [] => none
          | c2 :: rest2 =>
            if c2 = close then some ([v], rest2)
            else if c2 = ',' then
              (pyElems fuel close rest2).map (fun p => (v :: p.1, p.2))
            else none

/-- Dictionary entries `key: value` up to `}` (with optional trailing
comma). -/
def pyDictEntries : Nat → List Char → Option (List (PyVal × PyVal) × List Char)
  | 0, _ => none
  | fuel + 1, l0 =>
    let l := l0.dropWhile isPyWs
    match l with
    | [] => none
    | c :: rest =>
      if c = '}' then some ([], rest)
      else
        match pyLit fuel (c :: rest) with
        | none => none
        | some (k, r2) =>
          match r2.dropWhile isPyWs with
          | ':' :: r3 =>
            match pyLit fuel r3 with
            | none => none
            | some (v, r4) =>
              match r4.dropWhile isPyWs with
              | [] => none
              | c2 :: rest2 =>
                if c2 = '}' then some ([(k, v)], rest2)
                else if c2 = ',' then
                  (pyDictEntries fuel rest2).map (fun p => ((k, v) :: p.1, p.2))
                else none
          | _ => none

end

/-- Skip one positional-argument expression: a balanced span up to a
top-level `,` or `)` (the code never evaluates positional arguments —
`_parse_action_call` iterates `node.keywords` only). -/
def skipExprAux : List Char → Option Char → Nat → Option (List Char)
  | [], _, _ => none
  | c :: rest, some q, d =>
    if c = '\\' then
      match rest with
      | [] => none
      | _ :: r2 => skipExprAux r2 (some q) d
    else if c = q then skipExprAux rest none d
    else skipExprAux rest (some q) d
  | c :: rest, none, d =>
    if c = '\'' ∨ c = '"' then skipExprAux rest (some c) d
    else if c = '(' ∨ c = '[' ∨ c = '{' then skipExprAux rest none (d + 1)
    else if (c = ')' ∨ c = ',') ∧ d = 0 then some (c :: rest)
    else if c = ')' ∨ c = ']' ∨ c = '}' then skipExprAux rest none (d - 1)
    else skipExprAux rest none d

/-- Call-argument sequence up to the closing `)`: positional (skipped) then
keyword arguments, as `ast.parse` accepts them. -/
def pyArgsAux : Nat → Bool → List Char → Option (List (List Char × PyVal) × List Char)
  | 0, _, _ => none
  | fuel + 1, allowPos, l0 =>
    let l := l0.dropWhile isPyWs
    match l with
    | [] => none
    | c :: rest =>
      if c = ')' then some ([], rest)
      else
        let w := headWordRun l
        let afterW := (l.drop w.length).dropWhile isPyWs
        let isKw : Bool := (!w.isEmpty) &&
          (w.head?.all (fun ch => !ch.isDigit)) &&
          (afterW.head? == some '=') && !(afterW.tail.head? == some '=')
        if isKw then
          match pyLit fuel afterW.tail with
          | none => none
          | some (v, r2) =>
            match r2.dropWhile isPyWs with
            | ')' :: rest2 => some ([(w, v)], rest2)
            | ',' :: rest2 =>
              (pyArgsAux fuel false rest2).map (fun p => ((w, v) :: p.1, p.2))
            | _ => none
        else if allowPos then
          match skipExprAux l none 0 with
          | none => none
          | some rem =>
            if rem.length = l.length then none
            else
              match rem with
              | ')' :: rest2 => some ([], rest2)
              | ',' :: rest2 => pyArgsAux fuel allowPos rest2
              | _ => none
        else none

/-- The strict branch of `_parse_action_call` (action_parser.py lines
140-151): `ast.parse(s, mode="eval")` accepted when the expression is
`Name(kw=literal, ...)`; `none` covers every way the code falls through to
the tolerant fallback (syntax error, non-call shape, non-`Name` callee,
non-literal keyword value, duplicate keyword). -/
def pyParseCallAst (s : List Char) : Option (List Char × List (List Char × PyVal)) :=
  let name := headWordRun s
  if name.isEmpty then none
  else if (name.head?.map Char.isDigit).getD false then none
  else
    match (s.drop name.length).dropWhile isPyWs with
    | '(' :: r =>
      match pyArgsAux (s.length + 1) true r with
      | none => none
      | some (kws, rem) =>
        if (rem.dropWhile isPyWs).isEmpty ∧ (kws.map Prod.fst).Nodup then
          some (name, kws)
        else none
    | _ => none

/-! ## Tolerant fallback of `_parse_action_call` (action_parser.py lines
153-184) -/

/-- Substring containment (Python `in`), for a non-empty pattern. -/
def containsSub (pat : List Char) : List Char → Bool
  | [] => false
  | c :: rest => ((c :: rest).take pat.length == pat) || containsSub pat rest

/-- Strip one pair of matching surrounding quotes (action_parser.py lines
168-171). -/
def stripMatchingQuotes (v : List Char) : List Char :=
  if (v.head? = some '\'' ∧ v.getLast? = some '\'') ∨
      (v.head? = some '"' ∧ v.getLast? = some '"') then
    (v.drop 1).dropLast
  else v

/-- `re.sub(pat1|pat2, "", v, flags=IGNORECASE)` for the two literal tag
patterns (`</bbox>`/`<bbox>` resp. `</point>`/`<point>`). -/
def removeTagsCIF (pat1 pat2 : List Char) : Nat → List Char → List Char
  | 0, l => l
  | _, [] => []
  | fuel + 1, c :: rest =>
    if pat1 ≠ [] ∧ ((c :: rest).take pat1.length).map Char.toLower = pat1 then
      removeTagsCIF pat1 pat2 fuel ((c :: rest).drop pat1.length)
    else if pat2 ≠ [] ∧ ((c :: rest).take pat2.length).map Char.toLower = pat2 then
      removeTagsCIF pat1 pat2 fuel ((c :: rest).drop pat2.length)
    else c :: removeTagsCIF pat1 pat2 fuel rest

/-- See `removeTagsCIF`; fuel `length + 1` is never exhausted. -/
def removeTagsCI (pat1 pat2 : List Char) (l : List Char) : List Char :=
  removeTagsCIF pat1 pat2 (l.length + 1) l

/-- `re.sub(r"\s+", sep, v)` for a one-character replacement: replace each
maximal whitespace run with one `sep` (`inRun` tracks whether the previous
character was whitespace). -/
def wsRunsToAux (sep : Char) : Bool → List Char → List Char
  | _, [] => []
  | inRun, c :: rest =>
    if isPyWs c then
      (if inRun then [] else [sep]) ++ wsRunsToAux sep true rest
    else c :: wsRunsToAux sep false rest

/-- `re.sub(r"\s+", ",", v)`. -/
def wsRunsToComma (l : List Char) : List Char :=
  wsRunsToAux ',' false l

/-- Value post-processing of the fallback (action_parser.py lines 166-182):
strip surrounding quotes, then expand `<bbox>`/`<point>` tags into
parenthesised comma-joined coordinates. -/
def processFallbackValue (v0 : List Char) : List Char :=
  let v1 := stripMatchingQuotes v0
  let v2 :=
    if containsSub "<bbox>".toList v1 then
      let t := removeTagsCI "</bbox>".toList "<bbox>".toList v1
      '(' :: (wsRunsToComma (pstrip t)) ++ [')']
    else v1
  if containsSub "<point>".toList v2 then
    let t := removeTagsCI "</point>".toList "<point>".toList v2
    '(' :: (wsRunsToComma (pstrip t)) ++ [')']
  else v2

/-- Keyword pairs of the fallback (action_parser.py lines 160-183): split the
argument string on top-level commas, keep `key=value` pairs (first `=`
splits), strip both sides, post-process the value. -/
def fallbackKwargs (argsStr : List Char) : List (List Char × List Char) :=
  (splitArgs argsStr).foldl
    (fun acc pair =>
      if pair.contains '=' then
        let key := pstrip (pair.takeWhile (fun ch => ch != '='))
        let value := pstrip ((pair.dropWhile (fun ch => ch != '=')).tail)
        acc ++ [(key, processFallbackValue value)]
      else acc)
    []

/-- The fallback regex `^(\w+)\((.*)\)$` (action_parser.py lines 154-158) and
its argument processing: the leading word run must be followed directly by
`(`, the string must end with `)`, and the middle may not span a newline
(`.` does not match one). -/
def fallbackCall (s : List Char) : Option (List Char × List (List Char × List Char)) :=
  let name := headWordRun s
  if name.isEmpty then none
  else
    match s.drop name.length with
    | '(' :: rest2 =>
      match rest2.reverse with
      | ')' :: midrev =>
        let mid := midrev.reverse
        if mid.contains '\n' then none
        else
          let argsStr := pstrip mid
          if argsStr.isEmpty then some (name, [])
          else some (name, fallbackKwargs argsStr)
      | _ => none
    | _ => none

/-! ## `_parse_action_call` and `parse_predictions`
(action_parser.py lines 126-184 and 237-311) -/

/-- `kwargs[k]` with Python dict later-assignment-wins semantics. -/
def kwGet (k : List Char) (kws : List (List Char × PyVal)) : Option PyVal :=
  (kws.reverse.find? (fun p => p.1 == k)).map Prod.snd

/-- Python `str(x)`.  Exact for strings, integers, booleans and `None`
(the only shapes reaching the `str()` calls of `parse_predictions` in
practice); the float and container renderings are canonical placeholders
that no claim reads. -/
def pyValStr : PyVal → List Char
  | PyVal.pstr s => s
  | PyVal.pint n => (toString n).toList
  | PyVal.pfloat q => (toString q).toList
  | PyVal.pbool b => if b then "True".toList else "False".toList
  | PyVal.pnone => "None".toList
  | PyVal.plist _ => "<list>".toList
  | PyVal.ptuple _ => "<tuple>".toList
  | PyVal.pdict _ => "<dict>".toList

/-- Python `float(str)` on finite decimal forms (the `inf`/`nan` spellings
are not representable in the `ℚ` model and map to `none`; no claim reads
them). -/
def pyParseFloat (s : List Char) : Option ℚ :=
  match pyNumLit (pstrip s) with
  | some (PyVal.pint n, []) => some (n : ℚ)
  | some (PyVal.pfloat q, []) => some q
  | _ => none

/-- Python `int(str)`: optional sign and digits only. -/
def pyParseInt (s : List Char) : Option Int :=
  let t := pstrip s
  let (neg, t1) :=
    match t with
    | '-' :: r => (true, r)
    | '+' :: r => (false, r)
    | _ => (false, t)
  if t1 ≠ [] ∧ t1.all Char.isDigit then
    some (if neg then -(natOfDigits t1 : Int) else (natOfDigits t1 : Int))
  else none

/-- `float(x)` over the modelled values; `none` models the caught
exception. -/
def pyValFloat : PyVal → Option ℚ
  | PyVal.pint n => some (n : ℚ)
  | PyVal.pfloat q => some q
  | PyVal.pbool b => some (if b then 1 else 0)
  | PyVal.pstr s => pyParseFloat s
  | _ => none

/-- `int(x)` over the modelled values (float truncation is toward zero);
`none` models the caught exception. -/
def pyValInt : PyVal → Option Int
  | PyVal.pint n => some n
  | PyVal.pfloat q => some (q.num / (q.den : Int))
  | PyVal.pbool b => some (if b then 1 else 0)
  | PyVal.pstr s => pyParseInt s
  | _ => none

/-- Mirror of `ActionInputs` (iphoneclaw/types.py lines 19-32); the
`start_coords`/`end_coords` fields are filled by the executor, never by the
parser, and are omitted. -/
structure ActionInputs where
  content : Option (List Char) := none
  start_box : Option (List Char) := none
  end_box : Option (List Char) := none
  key : Option (List Char) := none
  direction : Option (List Char) := none
  seconds : Option ℚ := none
  ms : Option Int := none
  interval_ms : Option Int := none
deriving Repr, DecidableEq

/-- Mirror of `PredictionParsed` (iphoneclaw/types.py lines 35-41); the
`thought`/`reflection` metadata copied verbatim onto every action of one
parse call is omitted (no claim reads it). -/
structure PredictionParsed where
  action_type : List Char
  action_inputs : ActionInputs
  raw_action : List Char
deriving Repr, DecidableEq

/-- `_parse_action_call` (action_parser.py lines 126-184): preprocess, strip,
strip trailing dots; bare `\w+` tokens become zero-argument calls; then the
strict branch, then the tolerant fallback; `Except.error` carries the
`ValueError` diagnostic. -/
def parseActionCall (src : List Char) :
    Except (List Char) (List Char × List (List Char × PyVal)) :=
  let s := rstripDot (pstrip (preprocessAction src))
  if s ≠ [] ∧ s.all isWordChar then Except.ok (s, [])
  else
    match pyParseCallAst s with
    | some (f, kws) => Except.ok (f, kws)
    | none =>
      match fallbackCall s with
      | some (f, kvs) => Except.ok (f, kvs.map (fun p => (p.1, PyVal.pstr p.2)))
      | none => Except.error ("Not a function call: ".toList ++ s)

/-- Keyword folding of `parse_predictions` (action_parser.py lines 268-299):
aliases `text`→`content` and `hotkey`→`key`; numeric conversions fall back to
`None` on failure. -/
def buildInputs (kwargs : List (List Char × PyVal)) : ActionInputs :=
  { content :=
      match kwGet "content".toList kwargs with
      | some v => some (pyValStr v)
      | none => (kwGet "text".toList kwargs).map pyValStr
    start_box := (kwGet "start_box".toList kwargs).map pyValStr
    end_box := (kwGet "end_box".toList kwargs).map pyValStr
    key :=
      match kwGet "key".toList kwargs with
      | some v => some (pyValStr v)
      | none => (kwGet "hotkey".toList kwargs).map pyValStr
    direction := (kwGet "direction".toList kwargs).map pyValStr
    seconds := (kwGet "seconds".toList kwargs).bind pyValFloat
    ms := (kwGet "ms".toList kwargs).bind pyValInt
    interval_ms := (kwGet "interval_ms".toList kwargs).bind pyValInt }

/-- Loop body of `parse_predictions` (action_parser.py lines 253-309): one
raw fragment becomes one parsed action, an unparseable fragment becomes an
`error_env` action carrying the diagnostic and the stripped fragment. -/
def fragToPred (raw : List Char) : PredictionParsed :=
  match parseActionCall (pstrip raw) with
  | Except.error e =>
    { action_type := "error_env".toList,
      action_inputs := { content := some ("parse error: ".toList ++ e) },
      raw_action := pstrip raw }
  | Except.ok (ty, kwargs) =>
    { action_type := ty,
      action_inputs := buildInputs kwargs,
      raw_action := pstrip raw }

/-- `parse_predictions` (action_parser.py lines 237-311). -/
def parsePredictions (text : List Char) : List PredictionParsed :=
  if extractActionStr text = [] then
    [{ action_type := "error_env".toList,
       action_inputs := { content := some "missing action".toList },
       raw_action := [] }]
  else
    (pySplitActions (extractActionStr text)).map fragToPred

/-! ## `parse_box_point` (action_parser.py lines 56-74) -/

/-- Value of a matched decimal token (digits `ds`, optional fraction `fs`),
modelling Python `float` conversion exactly over `ℚ`. -/
def numVal (neg : Bool) (ds fs : List Char) : ℚ :=
  let m : ℚ :=
    if fs.isEmpty then (natOfDigits ds : ℚ)
    else (natOfDigits ds : ℚ) + (natOfDigits fs : ℚ) / (10 : ℚ) ^ fs.length
  if neg then -m else m

/-- One match of `_NUM_RE = re.compile(r"-?\d+(?:\.\d+)?")` at the current
position: optional minus, digits, optional dot-digits; `none` when the
position does not start a number. -/
def matchNum (l : List Char) : Option (ℚ × List Char) :=
  let (neg, l1) :=
    match l with
    | '-' :: r => (true, r)
    | _ => (false, l)
  let (ds, l2) := takeDigits l1
  if ds.isEmpty then none
  else
    match l2 with
    | '.' :: r3 =>
      let (fs, l3) := takeDigits r3
      if fs.isEmpty then some (numVal neg ds [], l2)
      else some (numVal neg ds fs, l3)
    | _ => some (numVal neg ds [], l2)

/-- `_NUM_RE.findall`: leftmost non-overlapping number tokens (fuelled
structural recursion; each step consumes at least one character). -/
def findNumsF : Nat → List Char → List ℚ
  | 0, _ => []
  | _, [] => []
  | fuel + 1, c :: rest =>
    match matchNum (c :: rest) with
    | some (q, r) => q :: findNumsF fuel r
    | none => findNumsF fuel rest

/-- `_NUM_RE.findall(ss)` as rationals. -/
def findNums (l : List Char) : List ℚ := findNumsF (l.length + 1) l

/-- `parse_box_point` (action_parser.py lines 56-74), with Python float
arithmetic modelled exactly over `ℚ` (decimal tokens are exact rationals).
The `None` input of the Python signature behaves like the empty string and is
subsumed by it. -/
def parse_box_point (s : List Char) : Option (ℚ × ℚ) :=
  if pstrip s = [] ∨ pstrip s = "[]".toList then none
  else if (findNums (pstrip s)).length < 2 then none
  else if 4 ≤ (findNums (pstrip s)).length then
    match findNums (pstrip s) with
    | x1 :: y1 :: x2 :: y2 :: _ => some ((x1 + x2) / 2, (y1 + y2) / 2)
    | _ => none
  else
    match findNums (pstrip s) with
    | x :: y :: _ => some (x, y)
    | _ => none

theorem findNums_nil : findNums [] = [] := rfl

theorem findNums_brackets : findNums "[]".toList = [] := by decide

/-- Claim C9: a coordinate string containing exactly two numbers decodes to
that point; one containing four or more numbers decodes to the centre of the
box formed by the first four; fewer than two numbers decode to no point. -/
theorem claim_C9_parse_box_point (s : List Char) :
    (∀ x y : ℚ, findNums (pstrip s) = [x, y] → parse_box_point s = some (x, y)) ∧
    (∀ (x1 y1 x2 y2 : ℚ) (rest : List ℚ),
        findNums (pstrip s) = x1 :: y1 :: x2 :: y2 :: rest →
        parse_box_point s = some ((x1 + x2) / 2, (y1 + y2) / 2)) ∧
    ((findNums (pstrip s)).length < 2 → parse_box_point s = none) := by
  refine ⟨?_, ?_, ?_⟩
  · intro x y h
    have hne : ¬ (pstrip s = [] ∨ pstrip s = "[]".toList) := by
      rintro (h0 | h0) <;> rw [h0] at h
      · rw [findNums_nil] at h; cases h
      · rw [findNums_brackets] at h; cases h
    unfold parse_box_point
    rw [if_neg hne, h]
    simp
  · intro x1 y1 x2 y2 rest h
    have hne : ¬ (pstrip s = [] ∨ pstrip s = "[]".toList) := by
      rintro (h0 | h0) <;> rw [h0] at h
      · rw [findNums_nil] at h; cases h
      · rw [findNums_brackets] at h; cases h
    unfold parse_box_point
    rw [if_neg hne, h]
    have hlen : ¬ ((x1 :: y1 :: x2 :: y2 :: rest).length < 2) := by
      simp only [List.length_cons]
      omega
    have hlen4 : 4 ≤ (x1 :: y1 :: x2 :: y2 :: rest).length := by
      simp only [List.length_cons]
      omega
    rw [if_neg hlen, if_pos hlen4]
  · intro h
    unfold parse_box_point
    by_cases hne : pstrip s = [] ∨ pstrip s = "[]".toList
    · rw [if_pos hne]
    · rw [if_neg hne, if_pos h]

theorem claim_C9_parse_box_point_witness :
    parse_box_point "(100,200)".toList = some ((100 : ℚ), (200 : ℚ)) ∧
    parse_box_point "[1,2,3,4]".toList =
      some ((((1 : ℚ) + 3) / 2, ((2 : ℚ) + 4) / 2)) ∧
    parse_box_point "x".toList = none :=
  ⟨(claim_C9_parse_box_point "(100,200)".toList).1 100 200 (by decide),
   (claim_C9_parse_box_point "[1,2,3,4]".toList).2.1 1 2 3 4 [] (by decide),
   (claim_C9_parse_box_point "x".toList).2.2 (by decide)⟩

/-! ## Claims C2 and C8 about `parse_predictions` -/

/-- C2 counterexample: the input `";"` has a non-empty extracted action
string consisting only of separators, so `parse_predictions` returns the
empty list — not one `error_env` action. -/
theorem claim_C2_counterexample : parsePredictions ";".toList = [] := by decide

/-- Claim C2 (amended): `parse_predictions` is total (never raises) and
returns exactly one action per top-level fragment of the extracted action
string — one `error_env` action when the action string is empty, and, for an
unparseable fragment, an `error_env` action carrying the diagnostic and the
stripped fragment text.  An action string that is non-empty but consists
solely of separators has zero fragments, so the result can be empty (see
`claim_C2_counterexample`). -/
theorem claim_C2_parse_predictions (text : List Char) :
    (extractActionStr text = [] →
      parsePredictions text =
        [{ action_type := "error_env".toList,
           action_inputs := { content := some "missing action".toList },
           raw_action := [] }]) ∧
    ((parsePredictions text).length =
      if extractActionStr text = [] then 1
      else (pySplitActions (extractActionStr text)).length) ∧
    (∀ (raw e : List Char),
      extractActionStr text ≠ [] →
      raw ∈ pySplitActions (extractActionStr text) →
      parseActionCall (pstrip raw) = Except.error e →
      { action_type := "error_env".toList,
        action_inputs := { content := some ("parse error: ".toList ++ e) },
        raw_action := pstrip raw } ∈ parsePredictions text) := by
  refine ⟨?_, ?_, ?_⟩
  · intro h
    unfold parsePredictions
    rw [if_pos h]
  · by_cases h : extractActionStr text = []
    · rw [if_pos h]
      unfold parsePredictions
      rw [if_pos h]
      rfl
    · rw [if_neg h]
      unfold parsePredictions
      rw [if_neg h]
      exact List.length_map _ _
  · intro raw e hne hmem herr
    have hmap : parsePredictions text =
        (pySplitActions (extractActionStr text)).map fragToPred := by
      unfold parsePredictions
      rw [if_neg hne]
    rw [hmap]
    have hfrag : fragToPred raw =
        { action_type := "error_env".toList,
          action_inputs := { content := some ("parse error: ".toList ++ e) },
          raw_action := pstrip raw } := by
      unfold fragToPred
      rw [herr]
    rw [← hfrag]
    exact List.mem_map_of_mem fragToPred hmem

set_option maxHeartbeats 1000000 in
theorem claim_C2_parse_predictions_witness :
    ({ action_type := "error_env".toList,
       action_inputs :=
         { content :=
             some ("parse error: ".toList ++
               "Not a function call: oops oops".toList) },
       raw_action := pstrip "oops oops".toList } : PredictionParsed) ∈
      parsePredictions "Action: oops oops".toList :=
  (claim_C2_parse_predictions "Action: oops oops".toList).2.2
    "oops oops".toList "Not a function call: oops oops".toList
    (by decide) (by decide) rfl

/-! ## Whitespace-stripping lemmas (towards claim C8) -/

theorem dropWhile_append_nonws (p : Char → Bool) (u : List Char) (c : Char)
    (v : List Char) (hc : p c = false) :
    List.dropWhile p (u ++ c :: v) = List.dropWhile p u ++ c :: v := by
  induction u with
  | nil => simp [List.dropWhile_cons, hc]
  | cons d u' ih =>
    by_cases hd : p d = true
    · simp only [List.cons_append, List.dropWhile_cons, hd, if_true, ih]
    · have hd' : p d = false := by simpa using hd
      simp [List.dropWhile_cons, hd']

theorem lstrip_append_nonws (u : List Char) (c : Char) (v : List Char)
    (hc : isPyWs c = false) :
    lstripWs (u ++ c :: v) = lstripWs u ++ c :: v :=
  dropWhile_append_nonws isPyWs u c v hc

theorem lstrip_allWs_append (w y : List Char) (hw : w.all isPyWs = true) :
    lstripWs (w ++ y) = lstripWs y := by
  induction w with
  | nil => rfl
  | cons d w' ih =>
    simp only [List.all_cons, Bool.and_eq_true] at hw
    simp only [List.cons_append, lstripWs, List.dropWhile_cons, hw.1, if_true]
    exact ih hw.2

theorem rstripWs_cons (c : Char) (rest : List Char) :
    rstripWs (c :: rest) =
      (match rstripWs rest with
       | [] => if isPyWs c then [] else [c]
       | d :: r => c :: d :: r) := rfl

theorem rstrip_append_nonws (x : List Char) (c : Char) (b : List Char)
    (hc : isPyWs c = false) :
    rstripWs (x ++ c :: b) = x ++ c :: rstripWs b := by
  induction x with
  | nil =>
    simp only [List.nil_append]
    rw [rstripWs_cons]
    cases hr : rstripWs b with
    | nil => simp [hc]
    | cons d r => rfl
  | cons d x' ih =>
    simp only [List.cons_append]
    rw [rstripWs_cons, ih]
    cases hx : x' ++ c :: rstripWs b with
    | nil => exact absurd hx (by simp)
    | cons e r => rfl

theorem rstrip_allWs (l : List Char) (hl : l.all isPyWs = true) :
    rstripWs l = [] := by
  induction l with
  | nil => rfl
  | cons c rest ih =>
    simp only [List.all_cons, Bool.and_eq_true] at hl
    rw [rstripWs_cons, ih hl.2]
    simp [hl.1]

theorem rstrip_idem (l : List Char) : rstripWs (rstripWs l) = rstripWs l := by
  induction l with
  | nil => rfl
  | cons c rest ih =>
    cases hr : rstripWs rest with
    | nil =>
      rw [rstripWs_cons, hr]
      by_cases hc : isPyWs c
      · simp [hc, rstripWs]
      · have hc' : isPyWs c = false := by simpa using hc
        simp only [hc', if_false, Bool.false_eq_true]
        rw [rstripWs_cons]
        simp [hc', rstripWs]
    | cons d r =>
      rw [hr] at ih
      rw [rstripWs_cons, hr]
      simp only
      rw [rstripWs_cons, ih]

theorem rstrip_cons_rstrip (c : Char) (l : List Char) :
    rstripWs (c :: rstripWs l) = rstripWs (c :: l) := by
  rw [rstripWs_cons, rstrip_idem]
  conv_rhs => rw [rstripWs_cons]

theorem rstrip_decomp (l : List Char) :
    ∃ w, l = rstripWs l ++ w ∧ w.all isPyWs = true := by
  induction l with
  | nil => exact ⟨[], rfl, rfl⟩
  | cons c rest ih =>
    obtain ⟨w, hw, hwall⟩ := ih
    cases hr : rstripWs rest with
    | nil =>
      rw [hr] at hw
      simp only [List.nil_append] at hw
      by_cases hc : isPyWs c
      · refine ⟨c :: rest, ?_, ?_⟩
        · rw [rstripWs_cons, hr]
          simp [hc]
        · subst hw
          simp [hc, hwall]
      · have hc' : isPyWs c = false := by simpa using hc
        refine ⟨w, ?_, hwall⟩
        rw [rstripWs_cons, hr]
        simp only [hc', Bool.false_eq_true, if_false]
        rw [List.cons_append]
        rw [List.nil_append]
        rw [← hw]
    | cons d r =>
      rw [hr] at hw
      refine ⟨w, ?_, hwall⟩
      rw [rstripWs_cons, hr]
      simp only
      rw [List.cons_append, ← hw]

theorem dropWhile_head_false (p : Char → Bool) (l : List Char) (c : Char)
    (t : List Char) (h : l.dropWhile p = c :: t) : p c = false := by
  induction l with
  | nil => cases h
  | cons d rest ih =>
    rw [List.dropWhile_cons] at h
    by_cases hd : p d = true
    · rw [if_pos hd] at h
      exact ih h
    · rw [if_neg hd] at h
      cases h
      simpa using hd

/-! ## `Action:` marker lemmas (towards claim C8) -/

theorem isMarkerHead_iff (l : List Char) :
    isMarkerHead l = true ↔
      (l.take 7 = "Action:".toList ∨ l.take 7 = "Action：".toList) := by
  unfold isMarkerHead
  simp

theorem isMarkerHead_length (l : List Char) (h : isMarkerHead l = true) :
    7 ≤ l.length := by
  rw [isMarkerHead_iff] at h
  rcases h with h | h <;>
  · have := congrArg List.length h
    simp only [List.length_take] at this
    have : min 7 l.length = 7 := by
      rw [this]
      decide
    omega

theorem isMarkerHead_append (l y : List Char) (h : isMarkerHead l = true) :
    isMarkerHead (l ++ y) = true := by
  have hlen := isMarkerHead_length l h
  rw [isMarkerHead_iff] at h ⊢
  rw [List.take_append_of_le_length hlen]
  exact h

theorem hasMarker_cons (c : Char) (rest : List Char) :
    hasMarker (c :: rest) = (isMarkerHead (c :: rest) || hasMarker rest) := rfl

theorem hasMarker_append_left (l y : List Char) (h : hasMarker l = true) :
    hasMarker (l ++ y) = true := by
  induction l with
  | nil => cases h
  | cons c rest ih =>
    rw [hasMarker_cons] at h
    rw [List.cons_append, hasMarker_cons]
    simp only [Bool.or_eq_true] at h ⊢
    rcases h with h | h
    · exact Or.inl (by rw [← List.cons_append]; exact isMarkerHead_append (c :: rest) y h)
    · exact Or.inr (ih h)

theorem isMarkerHead_marker (y : List Char) :
    isMarkerHead ("Action:".toList ++ y) = true := by
  rw [isMarkerHead_iff]
  left
  have : ("Action:".toList).length = 7 := by decide
  rw [← this, List.take_left]

theorem hasMarker_marker_mid (x y : List Char) :
    hasMarker (x ++ "Action:".toList ++ y) = true := by
  induction x with
  | nil =>
    simp only [List.nil_append]
    cases hm : "Action:".toList ++ y with
    | nil => exact absurd hm (by simp)
    | cons c rest =>
      rw [hasMarker_cons, ← hm, isMarkerHead_marker]
      rfl
  | cons c x' ih =>
    simp only [List.cons_append] at ih ⊢
    rw [hasMarker_cons, ih]
    simp

theorem hasMarker_of_prefix (x w : List Char) (h : hasMarker (x ++ w) = false) :
    hasMarker x = false := by
  by_contra hx
  have hx' : hasMarker x = true := by
    cases hv : hasMarker x
    · exact absurd hv hx
    · rfl
  rw [hasMarker_append_left x w hx'] at h
  cases h

theorem splitMarkerF_ne_nil (fuel : Nat) (l : List Char) :
    splitMarkerF fuel l ≠ [] := by
  match fuel, l with
  | 0, l => simp [splitMarkerF]
  | fuel + 1, [] => simp [splitMarkerF]
  | fuel + 1, c :: rest =>
    unfold splitMarkerF
    by_cases hm : isMarkerHead (c :: rest) = true
    · simp [hm]
    · have hm' : isMarkerHead (c :: rest) = false := by
        cases hv : isMarkerHead (c :: rest)
        · rfl
        · exact absurd hv hm
      rw [hm']
      simp only [Bool.false_eq_true, if_false]
      cases hs : splitMarkerF fuel rest <;> simp

theorem splitMarkerF_no_marker (fuel : Nat) (l : List Char)
    (hf : l.length < fuel) (hm : hasMarker l = false) :
    splitMarkerF fuel l = [l] := by
  induction fuel generalizing l with
  | zero => omega
  | succ f ih =>
    cases l with
    | nil => rfl
    | cons c rest =>
      unfold hasMarker at hm
      simp only [Bool.or_eq_false_iff] at hm
      unfold splitMarkerF
      rw [hm.1]
      simp only [Bool.false_eq_true, if_false]
      rw [ih rest (by simp at hf; omega) hm.2]

theorem splitMarkerF_two_of_marker (fuel : Nat) (l : List Char)
    (hf : l.length < fuel) (hm : hasMarker l = true) :
    2 ≤ (splitMarkerF fuel l).length := by
  induction fuel generalizing l with
  | zero => omega
  | succ f ih =>
    cases l with
    | nil => cases hm
    | cons c rest =>
      unfold splitMarkerF
      by_cases hh : isMarkerHead (c :: rest) = true
      · rw [if_pos hh]
        have := splitMarkerF_ne_nil f ((c :: rest).drop 7)
        cases hs : splitMarkerF f ((c :: rest).drop 7) with
        | nil => exact absurd hs this
        | cons a t => simp
      · have hh' : isMarkerHead (c :: rest) = false := by
          cases hv : isMarkerHead (c :: rest)
          · rfl
          · exact absurd hv hh
        rw [hh']
        simp only [Bool.false_eq_true, if_false]
        unfold hasMarker at hm
        rw [hh'] at hm
        simp only [Bool.false_or] at hm
        have h2 := ih rest (by simp at hf; omega) hm
        cases hs : splitMarkerF f rest with
        | nil => exact absurd hs (splitMarkerF_ne_nil f rest)
        | cons a t =>
          rw [hs] at h2
          simp only [List.length_cons] at h2 ⊢
          omega

/-- No `Action[:：]` occurrence can straddle the boundary between `a` and an
inserted `Action:` marker: the marker words have no non-trivial border. -/
theorem marker_no_straddle (a b : List Char) (ha : a ≠ []) (hlen : a.length < 7)
    (h : isMarkerHead (a ++ "Action:".toList ++ b) = true) : False := by
  rw [List.append_assoc, isMarkerHead_iff] at h
  have htake : (a ++ ("Action:".toList ++ b)).take 7 =
      a ++ ("Action:".toList ++ b).take (7 - a.length) := by
    rw [List.take_append_eq_append_take]
    congr 1
    exact List.take_of_length_le (le_of_lt hlen)
  have hMtake : ("Action:".toList ++ b).take (7 - a.length) =
      "Action:".toList.take (7 - a.length) := by
    apply List.take_append_of_le_length
    have h7 : ("Action:".toList).length = 7 := by decide
    omega
  rw [htake, hMtake] at h
  have hdrop : ∀ P : List Char, a ++ "Action:".toList.take (7 - a.length) = P →
      "Action:".toList.take (7 - a.length) = P.drop a.length := by
    intro P hP
    have := congrArg (List.drop a.length) hP
    rwa [List.drop_left] at this
  obtain ⟨k, hk1, hk7, hka⟩ : ∃ k, 1 ≤ k ∧ k < 7 ∧ a.length = k := by
    refine ⟨a.length, ?_, hlen, rfl⟩
    cases a with
    | nil => exact absurd rfl ha
    | cons c t => simp
  rcases h with h | h
  · have := hdrop _ h
    rw [hka] at this
    interval_cases k <;> exact absurd this (by decide)
  · have := hdrop _ h
    rw [hka] at this
    interval_cases k <;> exact absurd this (by decide)

theorem splitMarkerF_cons (f : Nat) (c : Char) (rest : List Char) :
    splitMarkerF (f + 1) (c :: rest) =
      (if isMarkerHead (c :: rest) then [] :: splitMarkerF f ((c :: rest).drop 7)
       else
        match splitMarkerF f rest with
        | [] => [[c]]
        | seg :: segs => (c :: seg) :: segs) := rfl

/-- The last marker-separated segment of `a ++ "Action:" ++ b` is exactly `b`
when `b` itself contains no marker. -/
theorem splitMarkerF_last (fuel : Nat) (a b : List Char)
    (hf : (a ++ "Action:".toList ++ b).length < fuel)
    (hb : hasMarker b = false) :
    ((splitMarkerF fuel (a ++ "Action:".toList ++ b)).getLast?).getD [] = b := by
  induction fuel generalizing a with
  | zero => omega
  | succ f ih =>
    cases a with
    | nil =>
      simp only [List.nil_append] at hf ⊢
      rw [show ("Action:".toList ++ b) = 'A' :: ("ction:".toList ++ b) from rfl,
        splitMarkerF_cons,
        if_pos (by
          rw [show ('A' :: ("ction:".toList ++ b)) = "Action:".toList ++ b from rfl]
          exact isMarkerHead_marker b)]
      rw [show (('A' :: ("ction:".toList ++ b)).drop 7) = b from by
        rw [show ('A' :: ("ction:".toList ++ b)) = "Action:".toList ++ b from rfl]
        rw [show (7 : Nat) = ("Action:".toList).length from by decide]
        exact List.drop_left _ _]
      have hlenb : b.length < f := by
        simp only [List.length_append] at hf
        have : ("Action:".toList).length = 7 := by decide
        omega
      rw [splitMarkerF_no_marker f b hlenb hb]
      rfl
    | cons c a' =>
      rw [show ((c :: a') ++ "Action:".toList ++ b) = c :: (a' ++ "Action:".toList ++ b)
        from by simp]
      rw [splitMarkerF_cons]
      by_cases hm : isMarkerHead (c :: (a' ++ "Action:".toList ++ b)) = true
      · rw [if_pos hm]
        by_cases hlen : 7 ≤ (c :: a').length
        · have hdrop : (c :: (a' ++ "Action:".toList ++ b)).drop 7 =
              ((c :: a').drop 7) ++ "Action:".toList ++ b := by
            rw [show (c :: (a' ++ "Action:".toList ++ b)) =
              (c :: a') ++ ("Action:".toList ++ b) from by simp]
            rw [List.drop_append_eq_append_drop]
            rw [Nat.sub_eq_zero_of_le hlen, List.drop_zero, List.append_assoc]
          rw [hdrop]
          have hf' : (((c :: a').drop 7) ++ "Action:".toList ++ b).length < f := by
            simp only [List.length_append, List.length_drop, List.length_cons] at hf ⊢
            omega
          have hih := ih ((c :: a').drop 7) hf'
          cases hX : splitMarkerF f (((c :: a').drop 7) ++ "Action:".toList ++ b) with
          | nil => exact absurd hX (splitMarkerF_ne_nil f _)
          | cons s t =>
            rw [hX] at hih
            rw [List.getLast?_cons_cons]
            exact hih
        · exact (marker_no_straddle (c :: a') b (by simp) (by omega)
            (by rw [show ((c :: a') ++ "Action:".toList ++ b) =
              c :: (a' ++ "Action:".toList ++ b) from by simp]; exact hm)).elim
      · rw [if_neg hm]
        have hmarker : hasMarker (a' ++ "Action:".toList ++ b) = true :=
          hasMarker_marker_mid a' b
        have hlen' : (a' ++ "Action:".toList ++ b).length < f := by
          simp only [List.length_append, List.length_cons] at hf ⊢
          omega
        have h2 := splitMarkerF_two_of_marker f _ hlen' hmarker
        have hih := ih a' hlen'
        cases hX : splitMarkerF f (a' ++ "Action:".toList ++ b) with
        | nil => exact absurd hX (splitMarkerF_ne_nil f _)
        | cons seg segs =>
          rw [hX] at h2 hih
          cases segs with
          | nil =>
            simp only [List.length_cons, List.length_nil] at h2
            omega
          | cons s2 t2 =>
            simp only
            rw [List.getLast?_cons_cons]
            rw [List.getLast?_cons_cons] at hih
            exact hih

theorem lstrip_cons_nonws (c : Char) (l : List Char) (hc : isPyWs c = false) :
    lstripWs (c :: l) = c :: l := by
  simp [lstripWs, List.dropWhile_cons, hc]

theorem pstrip_marker_mid (a b : List Char) :
    pstrip (a ++ "Action:".toList ++ b) =
      lstripWs a ++ "Action:".toList ++ rstripWs b := by
  unfold pstrip
  have h1 : lstripWs (a ++ "Action:".toList ++ b) =
      lstripWs a ++ "Action:".toList ++ b := by
    rw [List.append_assoc,
      show ("Action:".toList ++ b) = 'A' :: ("ction:".toList ++ b) from rfl,
      lstrip_append_nonws a 'A' _ (by decide)]
    simp [List.append_assoc]
  rw [h1,
    show lstripWs a ++ "Action:".toList ++ b =
      (lstripWs a ++ "Action".toList) ++ ':' :: b from by simp [List.append_assoc],
    rstrip_append_nonws _ ':' b (by decide)]
  simp [List.append_assoc]

theorem takeWhile_all_ws (b : List Char) :
    (b.takeWhile isPyWs).all isPyWs = true := by
  rw [List.all_eq_true]
  intro x hx
  exact List.mem_takeWhile_imp hx

theorem lstrip_nil_all_ws (b : List Char) (h : lstripWs b = []) :
    b.all isPyWs = true := by
  have hd := List.takeWhile_append_dropWhile (p := isPyWs) (l := b)
  rw [show b.dropWhile isPyWs = lstripWs b from rfl, h, List.append_nil] at hd
  rw [← hd]
  exact takeWhile_all_ws b

theorem pstrip_rstrip (b : List Char) : pstrip (rstripWs b) = pstrip b := by
  cases hs : lstripWs b with
  | nil =>
    have hall := lstrip_nil_all_ws b hs
    have hr : rstripWs b = [] := rstrip_allWs b hall
    rw [hr]
    unfold pstrip
    rw [hs]
    rfl
  | cons c s' =>
    have hc : isPyWs c = false := dropWhile_head_false isPyWs b c s' hs
    have hdecomp : b = b.takeWhile isPyWs ++ c :: s' := by
      conv_lhs => rw [← List.takeWhile_append_dropWhile (p := isPyWs) (l := b)]
      rw [show b.dropWhile isPyWs = lstripWs b from rfl, hs]
    have hwall := takeWhile_all_ws b
    calc pstrip (rstripWs b)
        = pstrip (rstripWs (b.takeWhile isPyWs ++ c :: s')) := by rw [← hdecomp]
      _ = pstrip (b.takeWhile isPyWs ++ c :: rstripWs s') := by
          rw [rstrip_append_nonws _ c _ hc]
      _ = rstripWs (lstripWs (b.takeWhile isPyWs ++ c :: rstripWs s')) := rfl
      _ = rstripWs (c :: rstripWs s') := by
          rw [lstrip_allWs_append _ _ hwall, lstrip_cons_nonws c _ hc]
      _ = rstripWs (c :: s') := rstrip_cons_rstrip c s'
      _ = rstripWs (lstripWs b) := by rw [hs]
      _ = pstrip b := rfl

/-- The general content of claim C8: the action string is taken from the text
after the last `Action:` marker (`a` may itself contain arbitrarily many
earlier `Action:` sections). -/
theorem extract_last_section (a b : List Char) (hb : hasMarker b = false) :
    extractActionStr (a ++ "Action:".toList ++ b) = pstrip b := by
  unfold extractActionStr
  rw [pstrip_marker_mid]
  have hb0 : hasMarker (rstripWs b) = false := by
    obtain ⟨w, hw, _⟩ := rstrip_decomp b
    exact hasMarker_of_prefix (rstripWs b) w (by rw [← hw]; exact hb)
  rw [if_pos (hasMarker_marker_mid (lstripWs a) (rstripWs b))]
  unfold splitMarker
  rw [splitMarkerF_last _ (lstripWs a) (rstripWs b) (by omega) hb0]
  exact pstrip_rstrip b

/-- Claim C8: when a model output contains several `Action:` sections, the
parser takes the action statements only from the last one; in particular the
scenario text parses to exactly one `click` action with
`start_box = "(100,200)"`. -/
theorem claim_C8_last_action_wins :
    (∀ a b : List Char, hasMarker b = false →
      extractActionStr (a ++ "Action:".toList ++ b) = pstrip b) ∧
    parsePredictions "Thought: tap button\nAction: click(start_box='(100,200)')".toList =
      [{ action_type := "click".toList,
         action_inputs := { start_box := some "(100,200)".toList },
         raw_action := "click(start_box='(100,200)')".toList }] :=
  ⟨fun a b hb => extract_last_section a b hb, by decide⟩

theorem claim_C8_last_action_wins_witness :
    extractActionStr
        ("Thought: x\nAction: first()\n".toList ++ "Action:".toList ++
          " second(x=1)".toList) =
      pstrip " second(x=1)".toList :=
  claim_C8_last_action_wins.1 "Thought: x\nAction: first()\n".toList
    " second(x=1)".toList (by decide)

/-! ## Action Script compiler (iphoneclaw/automation/action_script.py)

`base_dir` is threaded through compilation only to reach `_macro_open_app`,
which ignores it, so the `ScriptContext` carries no information the compiler
reads and is omitted; the variable map and the process environment
(`os.environ`) are passed as association lists. -/

/-- Characters allowed in a `${NAME}` template variable
(`[A-Z0-9_]`, action_script.py line 21). -/
def isTplChar (c : Char) : Bool :=
  (('A' ≤ c ∧ c ≤ 'Z') : Bool) || c.isDigit || c == '_'

/-- First-match lookup in an association list (Python `k in d` / `d[k]`). -/
def lookupVar (k : List Char) (m : List (List Char × List Char)) :
    Option (List Char) :=
  (m.find? (fun p => p.1 == k)).map Prod.snd

/-- `render_template` (action_script.py lines 24-39): replace `${NAME}` from
the variable map, then the environment, else leave it verbatim (fuelled
structural recursion; each step consumes at least one character). -/
def renderTemplateF (vars env : List (List Char × List Char)) :
    Nat → List Char → List Char
  | 0, l => l
  | _, [] => []
  | fuel + 1, '$' :: '{' :: rest =>
    let k := rest.takeWhile isTplChar
    if hk : k ≠ [] ∧ rest.drop k.length ≠ [] ∧ (rest.drop k.length).head? = some '}' then
      (match lookupVar k vars with
       | some v => v
       | none =>
         match lookupVar k env with
         | some v => v
         | none => '$' :: '{' :: (k ++ ['}'])) ++
        renderTemplateF vars env fuel ((rest.drop k.length).tail)
    else '$' :: renderTemplateF vars env fuel ('{' :: rest)
  | fuel + 1, c :: rest => c :: renderTemplateF vars env fuel rest

/-- `render_template`. -/
def renderTemplate (vars env : List (List Char × List Char)) (text : List Char) :
    List Char :=
  renderTemplateF vars env (text.length + 1) text

/-- `_split_top_level` (action_script.py lines 42-84): like `_split_actions`
but also splitting on top-level commas (and with no trailing filter). -/
def splitTopLevel (s : List Char) : List (List Char) :=
  let st := pstrip s
  if st = [] then [] else splitScanAux ['\n', ';', ','] st [] none 0

/-- Scan of `_explode_function_prefix` (action_script.py lines 153-174):
find the first top-level `)` that closes to depth 0 and split there. -/
def explodeAux : List Char → List Char → Option Char → Nat →
    Option (List Char × List Char)
  | [], _, _, _ => none
  | c :: rest, acc, some q, depth =>
    explodeAux rest (acc ++ [c]) (if c == q then none else some q) depth
  | c :: rest, acc, none, depth =>
    if c == '\'' || c == '"' then explodeAux rest (acc ++ [c]) (some c) depth
    else if c == '(' then explodeAux rest (acc ++ [c]) none (depth + 1)
    else if c == ')' then
      if depth - 1 == 0 then some (acc ++ [c], rest)
      else explodeAux rest (acc ++ [c]) none (depth - 1)
    else explodeAux rest (acc ++ [c]) none depth

/-- `_explode_function_prefix` (action_script.py lines 142-175). -/
def explodeFunctionPrefix (stmt : List Char) : List (List Char) :=
  let s := pstrip stmt
  if s = [] then []
  else if !(s.contains '(') then [s]
  else
    match explodeAux s [] none 0 with
    | none => [s]
    | some (headPart, tailPart) =>
      let h := pstrip headPart
      let t := pstrip tailPart
      if h ≠ [] ∧ t ≠ [] then [h, t]
      else if h ≠ [] then [h]
      else if t ≠ [] then [t]
      else []

/-- `_KNOWN_KEYWORDS` (action_script.py lines 87-100). -/
def knownKeywords : List (List Char) :=
  ["iphone_home".toList, "iphone_app_switcher".toList, "sleep".toList,
   "wait".toList, "swipe".toList, "fswipe".toList, "scroll".toList,
   "hotkey".toList, "type".toList, "open_app".toList, "include".toList,
   "run_script".toList]

/-- `str.split(" ")` (single-space separator, keeping empties). -/
def splitOnSpace : List Char → List (List Char)
  | [] => [[]]
  | c :: rest =>
    if c = ' ' then [] :: splitOnSpace rest
    else
      match splitOnSpace rest with
      | [] => [[c]]
      | seg :: segs => (c :: seg) :: segs

def joinSpace (toks : List (List Char)) : List Char :=
  List.intercalate [' '] toks

/-- Token grouping of `_split_compound_no_parens` (action_script.py lines
127-139): start a new group at each keyword token. -/
def splitCompoundAux : List (List Char) → List (List Char) → List (List Char)
  | [], cur => if cur.isEmpty then [] else [pstrip (joinSpace cur)]
  | tok :: rest, cur =>
    if knownKeywords.contains (tok.map Char.toLower) && !cur.isEmpty then
      pstrip (joinSpace cur) :: splitCompoundAux rest [tok]
    else splitCompoundAux rest (cur ++ [tok])

/-- `_split_compound_no_parens` (action_script.py lines 117-139). -/
def splitCompoundNoParens (stmt : List Char) : List (List Char) :=
  let s := wsRunsToAux ' ' false (pstrip stmt)
  if s = [] then []
  else (splitCompoundAux (splitOnSpace s) []).filter (fun x => !x.isEmpty)

/-! ### `shlex.split(s, posix=True)` (used by `_expand_stmt`) -/

/-- `shlex` whitespace (space, tab, carriage return, newline). -/
def isShWs (c : Char) : Bool :=
  c == ' ' || c == '\t' || c == '\r' || c == '\n'

inductive ShState where
  | ws
  | word
  | inQuote (q : Char)
  | esc (fromQuote : Option Char)

/-- The `shlex.read_token` state machine with `posix=True` and
`whitespace_split=True`: single/double quotes, backslash escapes (inside
double quotes a backslash only escapes `"` and `\`), `none` on an unbalanced
quote or trailing escape (`ValueError`). -/
def shlexAux : List Char → ShState → List Char → Bool → Option (List (List Char))
  | [], st, tok, quoted =>
    match st with
    | ShState.inQuote _ => none
    | ShState.esc _ => none
    | _ => if tok ≠ [] ∨ quoted = true then some [tok] else some []
  | c :: rest, ShState.ws, _, _ =>
    if isShWs c then shlexAux rest ShState.ws [] false
    else if c == '\'' || c == '"' then shlexAux rest (ShState.inQuote c) [] true
    else if c == '\\' then shlexAux rest (ShState.esc none) [] false
    else shlexAux rest ShState.word [c] false
  | c :: rest, ShState.word, tok, quoted =>
    if isShWs c then (shlexAux rest ShState.ws [] false).map (tok :: ·)
    else if c == '\'' || c == '"' then shlexAux rest (ShState.inQuote c) tok true
    else if c == '\\' then shlexAux rest (ShState.esc none) tok quoted
    else shlexAux rest ShState.word (tok ++ [c]) quoted
  | c :: rest, ShState.inQuote q, tok, quoted =>
    if c == q then shlexAux rest ShState.word tok true
    else if c == '\\' && q == '"' then shlexAux rest (ShState.esc (some q)) tok quoted
    else shlexAux rest (ShState.inQuote q) (tok ++ [c]) quoted
  | c :: rest, ShState.esc fq, tok, quoted =>
    match fq with
    | none => shlexAux rest ShState.word (tok ++ [c]) quoted
    | some q =>
      if c ≠ q ∧ c ≠ '\\' then shlexAux rest (ShState.inQuote q) (tok ++ ['\\', c]) quoted
      else shlexAux rest (ShState.inQuote q) (tok ++ [c]) quoted

def shlexSplit (s : List Char) : Option (List (List Char)) :=
  shlexAux s ShState.ws [] false

/-- Python `str.split()` with no argument (split on whitespace runs, no
empties) — the fallback when `shlex.split` raises
(action_script.py lines 275-277). -/
def pySplitWsF : Nat → List Char → List (List Char)
  | 0, _ => []
  | _, [] => []
  | fuel + 1, l =>
    match l.dropWhile isPyWs with
    | [] => []
    | c :: r =>
      ((c :: r).takeWhile (fun ch => !isPyWs ch)) ::
        pySplitWsF fuel ((c :: r).dropWhile (fun ch => !isPyWs ch))

def pySplitWs (l : List Char) : List (List Char) :=
  pySplitWsF (l.length + 1) l

/-! ### Rendering helpers for the compiler's f-strings -/

def digitChar (n : Nat) : Char := Char.ofNat ('0'.toNat + n)

def natReprF : Nat → Nat → List Char
  | 0, _ => []
  | fuel + 1, n => if n < 10 then [digitChar n] else natReprF fuel (n / 10) ++ [digitChar (n % 10)]

/-- Decimal rendering of a natural number. -/
def natRepr (n : Nat) : List Char := natReprF (n + 1) n

/-- Python `str(int)`. -/
def intRepr (n : Int) : List Char :=
  if n < 0 then '-' :: natRepr n.natAbs else natRepr n.toNat

/-- `int(float)` truncation toward zero over `ℚ`. -/
def ratTrunc (q : ℚ) : Int := q.num / (q.den : Int)

/-- Smallest `k` with `den ∣ 10^k` (the floats the compiler renders are
parsed decimals, so such a `k` exists). -/
def findDecExpF : Nat → Nat → Nat → Option Nat
  | 0, _, _ => none
  | fuel + 1, den, k => if 10 ^ k % den == 0 then some k else findDecExpF fuel den (k + 1)

/-- Python `str(float)` for finite decimal values: shortest decimal form
with at least one fractional digit (`2.0`, `1.5`, `0.1`).  This matches
CPython's shortest-roundtrip repr for the decimal inputs the DSL accepts;
values needing scientific notation (`≥ 1e16`) are not modelled. -/
def floatRepr (q : ℚ) : List Char :=
  let sign : List Char := if q < 0 then ['-'] else []
  let qa := |q|
  match findDecExpF 64 qa.den 0 with
  | none => sign ++ "0.0".toList
  | some k =>
    let m : Nat := qa.num.toNat * (10 ^ k / qa.den)
    if k = 0 then sign ++ natRepr m ++ ".0".toList
    else
      let ds := natRepr m
      let dsp := List.replicate (k + 1 - ds.length) '0' ++ ds
      let ip := dsp.take (dsp.length - k)
      let fp := dsp.drop (dsp.length - k)
      let fp1 := (fp.reverse.dropWhile (fun c => c == '0')).reverse
      sign ++ ip ++ '.' :: (if fp1.isEmpty then ['0'] else fp1)

def hexLowerChar (n : Nat) : Char :=
  if n < 10 then Char.ofNat ('0'.toNat + n) else Char.ofNat ('a'.toNat + (n - 10))

def u4 (n : Nat) : List Char :=
  ['\\', 'u', hexLowerChar (n / 4096 % 16), hexLowerChar (n / 256 % 16),
   hexLowerChar (n / 16 % 16), hexLowerChar (n % 16)]

/-- One character of a JSON string body (`json.dumps`); `ea` is
`ensure_ascii`.  Astral characters become a surrogate pair. -/
def jsonQuoteChar (ea : Bool) (c : Char) : List Char :=
  if c = '"' then ['\\', '"']
  else if c = '\\' then ['\\', '\\']
  else if c = '\n' then ['\\', 'n']
  else if c = '\r' then ['\\', 'r']
  else if c = '\t' then ['\\', 't']
  else if c = '\x08' then ['\\', 'b']
  else if c = '\x0c' then ['\\', 'f']
  else if c.toNat < 0x20 then u4 c.toNat
  else if ea ∧ 0x7f < c.toNat then
    if c.toNat < 0x10000 then u4 c.toNat
    else u4 (0xd800 + (c.toNat - 0x10000) / 1024) ++ u4 (0xdc00 + (c.toNat - 0x10000) % 1024)
  else [c]

/-- `json.dumps` of a string: `_quote_py_string` uses the `ensure_ascii`
default (`true`), the `vars=` payload uses `ensure_ascii=False`. -/
def jsonQuote (ea : Bool) (s : List Char) : List Char :=
  '"' :: ((s.map (jsonQuoteChar ea)).join) ++ ['"']

/-- `json.dumps` of the string-to-string `vars` dict. -/
def jsonDict (m : List (List Char × List Char)) : List Char :=
  '{' :: (List.intercalate ", ".toList
    (m.map (fun p => jsonQuote false p.1 ++ ": ".toList ++ jsonQuote false p.2))) ++ ['}']

/-- Python `repr` of a string (used by the `%r` / `!r` error messages),
restricted to the characters the DSL can contain: printable-ASCII-range
escaping; astral/controls beyond `\xff` are not specially modelled. -/
def pyReprStr (s : List Char) : List Char :=
  let useDouble := s.contains '\'' && !(s.contains '"')
  let q : Char := if useDouble then '"' else '\''
  q :: ((s.map (fun c =>
    if c = '\\' then ['\\', '\\']
    else if c = q then ['\\', q]
    else if c = '\n' then ['\\', 'n']
    else if c = '\r' then ['\\', 'r']
    else if c = '\t' then ['\\', 't']
    else if c.toNat < 0x20 ∨ c.toNat = 0x7f then
      ['\\', 'x', hexLowerChar (c.toNat / 16), hexLowerChar (c.toNat % 16)]
    else [c])).join) ++ [q]

/-- `_unescape_type_content` (action_script.py lines 200-213). -/
def unescapeTypeContent (s : List Char) : List Char :=
  if s.isEmpty then []
  else
    let s1 := replaceAllSub ['\\', 'r'] ['\r'] s
    let s2 := replaceAllSub ['\\', 'n'] ['\n'] s1
    let s3 := replaceAllSub ['\\', 't'] ['\t'] s2
    let s4 := replaceAllSub ['\\', '"'] ['"'] s3
    let s5 := replaceAllSub ['\\', '\''] ['\''] s4
    replaceAllSub ['\\', '\\'] ['\\'] s5

/-- Ordered dict insertion (re-assignment keeps the original position). -/
def varsInsert (m : List (List Char × List Char)) (k v : List Char) :
    List (List Char × List Char) :=
  if m.any (fun p => p.1 == k) then
    m.map (fun p => if p.1 == k then (k, v) else p)
  else m ++ [(k, v)]

/-- `_parse_vars_tokens` (action_script.py lines 216-229). -/
def parseVarsTokens (tokens : List (List Char)) :
    Except (List Char) (List (List Char × List Char)) :=
  tokens.foldlM
    (fun out tok =>
      let t := pstrip tok
      if t.isEmpty then Except.ok out
      else if !(t.contains '=') then
        Except.error ("vars must be KEY=VALUE, got: ".toList ++ pyReprStr t)
      else
        let k := pstrip (t.takeWhile (fun ch => ch != '='))
        let v := (t.dropWhile (fun ch => ch != '=')).tail
        if k.isEmpty then Except.error ("vars has empty key: ".toList ++ pyReprStr t)
        else Except.ok (varsInsert out k v))
    []

/-- `_macro_open_app` (action_script.py lines 238-250). -/
def macroOpenApp (name0 : List Char) : Except (List Char) (List (List Char)) :=
  let name := pstrip name0
  if name.isEmpty then Except.error "open_app requires a non-empty app name".toList
  else Except.ok
    ["iphone_home()".toList,
     "swipe(direction='down')".toList,
     "sleep(ms=120)".toList,
     ("type(content=".toList ++ jsonQuote true (name ++ ['\n']) ++ [')']),
     "sleep(ms=350)".toList]

/-- `_parse_sleep_tokens` (action_script.py lines 178-191). -/
def parseSleepTokens (args : List (List Char)) : Except (List Char) (List Char) :=
  match args with
  | [] => Except.ok "sleep(ms=50)".toList
  | a :: _ =>
    let a0 := (pstrip a).map Char.toLower
    if a0.reverse.take 2 = ['s', 'm'] then
      let n := pstrip (a0.take (a0.length - 2))
      match pyParseFloat n with
      | some q => Except.ok ("sleep(ms=".toList ++ intRepr (ratTrunc q) ++ [')'])
      | none => Except.error ("could not convert string to float: ".toList ++ n)
    else if a0.reverse.take 1 = ['s'] then
      let n := pstrip (a0.take (a0.length - 1))
      match pyParseFloat n with
      | some q => Except.ok ("sleep(seconds=".toList ++ floatRepr q ++ [')'])
      | none => Except.error ("could not convert string to float: ".toList ++ n)
    else if !a0.isEmpty ∧ a0.all Char.isDigit then
      Except.ok ("sleep(ms=".toList ++ intRepr (natOfDigits a0 : Int) ++ [')'])
    else
      match pyParseFloat a0 with
      | some q => Except.ok ("sleep(seconds=".toList ++ floatRepr q ++ [')'])
      | none => Except.error ("could not convert string to float: ".toList ++ a0)

/-- The bare tokens `_looks_like_action_call` whitelists (action_script.py
line 112). -/
def bareActionTokens : List (List Char) :=
  ["iphone_home".toList, "iphone_app_switcher".toList, "wait".toList,
   "finished".toList, "call_user".toList]

/-- `_looks_like_action_call` (action_script.py lines 103-114). -/
def looksLikeActionCall (stmt : List Char) : Bool :=
  let s := pstrip stmt
  if s.isEmpty then false
  else
    (match s with
     | c :: _ =>
       (c.isAlpha || c == '_') &&
       (let name := headWordRun s
        match s.drop name.length with
        | '(' :: rest2 =>
          (match rest2.reverse with
           | ')' :: midrev => !(midrev.contains '\n')
           | _ => false)
        | _ => false)
     | [] => false) ||
    bareActionTokens.contains s

/-- The `x N` repetition-suffix handling of `_expand_stmt` (action_script.py
lines 285-291). -/
def repSplit (rest0 : List (List Char)) : Int × List (List Char) :=
  match rest0.reverse with
  | lastTok :: prevTok :: rback =>
    if prevTok.map Char.toLower = ['x'] then
      match pyParseInt lastTok with
      | some n => (n, rback.reverse)
      | none => (1, rest0)
    else (1, rest0)
  | _ => (1, rest0)

/-- `_expand_stmt` (action_script.py lines 253-360). -/
def expandStmt (stmt : List Char) : Except (List Char) (List (List Char)) :=
  let s := pstrip stmt
  if s.isEmpty then Except.ok []
  else if s.take 1 = ['#'] ∨ s.take 2 = ['/', '/'] then Except.ok []
  else if looksLikeActionCall s then
    (if bareActionTokens.contains s then Except.ok [s ++ ['(', ')']]
     else Except.ok [s])
  else
    let toks :=
      match shlexSplit s with
      | some t => t
      | none => pySplitWs s
    match toks with
    | [] => Except.ok []
    | t0 :: rest0 =>
      let cmd := t0.map Char.toLower
      let (rep, rest) := repSplit rest0
      (do
        let calls ←
          if cmd = "iphone_home".toList ∨ cmd = "home".toList then
            Except.ok ["iphone_home()".toList]
          else if cmd = "iphone_app_switcher".toList ∨ cmd = "app_switcher".toList then
            Except.ok ["iphone_app_switcher()".toList]
          else if cmd = "sleep".toList then
            (parseSleepTokens rest).map (fun c => [c])
          else if cmd = "wait".toList then Except.ok ["wait()".toList]
          else if cmd = "swipe".toList ∨ cmd = "fswipe".toList then
            match rest with
            | [] => Except.error "swipe requires a direction: up|down|left|right".toList
            | d0 :: _ =>
              let d := pstrip (d0.map Char.toLower)
              if d = "up".toList ∨ d = "down".toList ∨ d = "left".toList ∨
                  d = "right".toList then
                Except.ok [("swipe(direction=".toList ++ jsonQuote true d ++ [')'])]
              else Except.error "swipe direction must be up|down|left|right".toList
          else if cmd = "scroll".toList then
            match rest with
            | [] => Except.error "scroll requires a direction: up|down|left|right".toList
            | d0 :: _ =>
              let d := pstrip (d0.map Char.toLower)
              if d = "up".toList ∨ d = "down".toList ∨ d = "left".toList ∨
                  d = "right".toList then
                Except.ok [("scroll(direction=".toList ++ jsonQuote true d ++ [')'])]
              else Except.error "scroll direction must be up|down|left|right".toList
          else if cmd = "hotkey".toList then
            match rest with
            | [] => Except.error "hotkey requires keys, e.g. 'hotkey cmd 1'".toList
            | _ =>
              let key := (pstrip (joinSpace rest)).map Char.toLower
              Except.ok [("hotkey(key=".toList ++ jsonQuote true key ++ [')'])]
          else if cmd = "type".toList then
            let content := unescapeTypeContent (lstripWs (s.drop t0.length))
            Except.ok [("type(content=".toList ++ jsonQuote true content ++ [')'])]
          else if cmd = "open_app".toList then
            macroOpenApp (lstripWs (s.drop t0.length))
          else if cmd = "include".toList ∨ cmd = "run_script".toList then
            match rest with
            | [] => Except.error (cmd ++ " requires a script name/path".toList)
            | tgt0 :: vrest =>
              let target := pstrip tgt0
              if target.isEmpty then
                Except.error (cmd ++ " requires a non-empty script name/path".toList)
              else do
                let varsIn ← parseVarsTokens vrest
                let looksPath := target.contains '/' || target.contains '\\' ||
                  (target.reverse.take 4 == ".txt".toList.reverse) ||
                  target.take 1 == ['.']
                let key := if looksPath then "path".toList else "name".toList
                if varsIn.isEmpty then
                  Except.ok [("run_script(".toList ++ key ++ ['='] ++
                    jsonQuote true target ++ [')'])]
                else
                  Except.ok [("run_script(".toList ++ key ++ ['='] ++
                    jsonQuote true target ++ ", vars=".toList ++ jsonDict varsIn ++ [')'])]
          else Except.error ("unknown command: ".toList ++ pyReprStr cmd)
        if rep ≤ 0 then Except.ok []
        else Except.ok (List.replicate rep.toNat calls).join)

/-- Best-effort statement splitting of `script_to_action_calls`
(action_script.py lines 389-399), applied to one top-level statement. -/
def explodePieces (st : List Char) : List (List Char) :=
  ((explodeFunctionPrefix st).map (fun piece =>
    let p := pstrip piece
    if p.isEmpty then []
    else if !(p.contains '(') ∧ !(p.contains ')') ∧ !(p.contains '=') then
      splitCompoundNoParens p
    else [p])).join

/-- The `out.extend(_expand_stmt(ctx, st))` loop of `script_to_action_calls`
(action_script.py lines 401-403): a raised `ScriptParseError` aborts at the
first failing statement. -/
def expandAll : List (List Char) → Except (List Char) (List (List Char))
  | [] => Except.ok []
  | st :: rest => do
    let c ← expandStmt st
    let cs ← expandAll rest
    Except.ok (c ++ cs)

/-- `script_to_action_calls` (action_script.py lines 363-404). -/
def scriptToActionCalls (vars env : List (List Char × List Char))
    (text : List Char) : Except (List Char) (List (List Char)) := do
  let rendered := renderTemplate vars env text
  let stmts := splitTopLevel rendered
  let expanded := (stmts.map explodePieces).join
  let out ← expandAll expanded
  return (out.filter (fun x => !(pstrip x).isEmpty))

def joinNl (cs : List (List Char)) : List Char := List.intercalate ['\n'] cs

/-- `script_to_predictions` (action_script.py lines 407-418). -/
def scriptToPredictions (vars env : List (List Char × List Char))
    (text : List Char) : Except (List Char) (List PredictionParsed) :=
  (scriptToActionCalls vars env text).map (fun calls =>
    if calls.isEmpty then []
    else (parsePredictions ("Action: ".toList ++ joinNl calls)).filter
      (fun p => p.action_type ≠ "error_env".toList))

/-! ### `run_script(...)` expansion (action_script.py lines 421-582)

`resolve_script_path`, `os.path.abspath`, `os.path.basename`, `os.environ`
and `open(...).read()` are filesystem- and registry-bound; they enter the
model as an abstract `ScriptEnv` (resolution composed with `abspath`, a
total read for the environments where reads succeed — an `OSError` would
propagate as a non-`ScriptParseError` exception outside this model).
`ctx.base_dir` is threaded but never read by `_expand_stmt`, so it is
omitted. -/

structure ScriptEnv where
  resolveAbs : List Char → Except (List Char) (List Char)
  read : List Char → List Char
  baseName : List Char → List Char
  envVars : List (List Char × List Char)

/-- Argument list of an `ast`-accepted call for `parse_run_script_call`:
positional literals (a non-literal positional yields `none`, mirroring the
caught `literal_eval` failure), then keyword arguments whose values are
likewise `literal_eval`-or-`none`.  `**` unpacking and implicit string
concatenation are not modelled. -/
def rsArgsAux : Nat → Bool → List Char →
    Option (List (Option PyVal) × List (List Char × Option PyVal) × List Char)
  | 0, _, _ => none
  | fuel + 1, allowPos, l0 =>
    let l := l0.dropWhile isPyWs
    match l with
    | [] => none
    | c :: rest =>
      if c = ')' then some ([], [], rest)
      else
        let w := headWordRun l
        let afterW := (l.drop w.length).dropWhile isPyWs
        let isKw : Bool := (!w.isEmpty) &&
          (w.head?.all (fun ch => !ch.isDigit)) &&
          (afterW.head? == some '=') && !(afterW.tail.head? == some '=')
        if isKw then
          let skipVal : Option (List (Option PyVal) ×
              List (List Char × Option PyVal) × List Char) :=
            match skipExprAux afterW.tail none 0 with
            | none => none
            | some rem =>
              if rem.length = afterW.tail.length then none
              else
                match rem with
                | ')' :: rest2 => some ([], [(w, none)], rest2)
                | ',' :: rest2 =>
                  (rsArgsAux fuel false rest2).bind (fun t =>
                    if t.1.isEmpty then some ([], (w, none) :: t.2.1, t.2.2)
                    else none)
                | _ => none
          match pyLit fuel afterW.tail with
          | some (v, r2) =>
            (match r2.dropWhile isPyWs with
             | ')' :: rest2 => some ([], [(w, some v)], rest2)
             | ',' :: rest2 =>
               (rsArgsAux fuel false rest2).bind (fun t =>
                 if t.1.isEmpty then some ([], (w, some v) :: t.2.1, t.2.2)
                 else none)
             | _ => skipVal)
          | none => skipVal
        else if allowPos then
          let skipPos : Option (List (Option PyVal) ×
              List (List Char × Option PyVal) × List Char) :=
            match skipExprAux l none 0 with
            | none => none
            | some rem =>
              if rem.length = l.length then none
              else
                match rem with
                | ')' :: rest2 => some ([none], [], rest2)
                | ',' :: rest2 =>
                  (rsArgsAux fuel true rest2).map (fun t =>
                    (none :: t.1, t.2.1, t.2.2))
                | _ => none
          match pyLit fuel l with
          | some (v, r2) =>
            (match r2.dropWhile isPyWs with
             | ')' :: rest2 => some ([some v], [], rest2)
             | ',' :: rest2 =>
               (rsArgsAux fuel true rest2).map (fun t =>
                 (some v :: t.1, t.2.1, t.2.2))
             | _ => skipPos)
          | none => skipPos
        else none

/-- `str(v)` in `_coerce_vars` / the keyword sugar: `""` when the value is
`None` (including a failed `literal_eval`). -/
def rsValStr : Option PyVal → List Char
  | none => []
  | some PyVal.pnone => []
  | some w => pyValStr w

/-- `_coerce_vars` (action_script.py lines 421-431) on a `literal_eval`
result. -/
def coerceVars : Option PyVal →
    Except (List Char) (List (List Char × List Char))
  | none => Except.ok []
  | some PyVal.pnone => Except.ok []
  | some (PyVal.pdict entries) =>
    Except.ok (entries.foldl
      (fun m e =>
        match e.1 with
        | PyVal.pstr k =>
          if (pstrip k).isEmpty then m
          else varsInsert m (pstrip k) (rsValStr (some e.2))
        | _ => m)
      [])
  | some _ => Except.error "vars must be a dict".toList

/-- `parse_run_script_call` (action_script.py lines 434-489), returning
`(name, path, vars)`.  For inputs that fail `ast.parse` the CPython
`SyntaxError` text appended to `invalid run_script() syntax: %s` is
abstracted away, and the split between that message and
`not a run_script(...) call` is exact only for call-shaped, literal or
bare-name inputs (the inputs every theorem uses). -/
def parseRunScriptCall (src : List Char) :
    Except (List Char)
      (Option (List Char) × Option (List Char) × List (List Char × List Char)) :=
  let s := pstrip src
  if s.isEmpty then Except.error "empty run_script()".toList
  else
    let name := headWordRun s
    let nameOk : Bool := (!name.isEmpty) && !((name.head?.map Char.isDigit).getD false)
    let callParse : Option (List (Option PyVal) × List (List Char × Option PyVal)) :=
      if !nameOk then none
      else
        match (s.drop name.length).dropWhile isPyWs with
        | '(' :: r =>
          (match rsArgsAux (s.length + 1) true r with
           | some (pos, kws, rem) =>
             if (rem.dropWhile isPyWs).isEmpty ∧ (kws.map Prod.fst).Nodup then
               some (pos, kws)
             else none
           | none => none)
        | _ => none
    match callParse with
    | none =>
      if ((match pyLit (s.length + 1) s with
          | some (_, r2) => (r2.dropWhile isPyWs).isEmpty
          | none => false) ||
          (nameOk && ((s.drop name.length).dropWhile isPyWs).isEmpty)) = true then
        Except.error "not a run_script(...) call".toList
      else Except.error "invalid run_script() syntax".toList
    | some (pos, kws) =>
      if name ≠ "run_script".toList then
        Except.error "not a run_script(...) call".toList
      else
        let name0 : Option (List Char) :=
          match pos.head? with
          | some (some (PyVal.pstr v)) =>
            if (pstrip v).isEmpty then none else some (pstrip v)
          | _ => none
        kws.foldlM
          (fun st kw =>
            let (nm, pth, vs) := st
            if kw.1 = "name".toList then
              Except.ok
                (match kw.2 with
                 | some (PyVal.pstr v) =>
                   if (pstrip v).isEmpty then (nm, pth, vs)
                   else (some (pstrip v), pth, vs)
                 | _ => (nm, pth, vs))
            else if kw.1 = "path".toList then
              Except.ok
                (match kw.2 with
                 | some (PyVal.pstr v) =>
                   if (pstrip v).isEmpty then (nm, pth, vs)
                   else (nm, some (pstrip v), vs)
                 | _ => (nm, pth, vs))
            else if kw.1 = "vars".toList then
              (coerceVars kw.2).map (fun cv =>
                (nm, pth, cv.foldl (fun acc p => varsInsert acc p.1 p.2) vs))
            else
              Except.ok (nm, pth, varsInsert vs kw.1 (rsValStr kw.2)))
          (name0, none, [])

/-- `_expand_prediction_recursive` (action_script.py lines 514-559).
`depth_left` is a natural number (`expand_special_predictions` clamps it
with `max(0, ...)`), which also makes termination structural — the Python
recursion terminates for the same reason. -/
def expandPredictionRecursive (E : ScriptEnv) :
    Nat → List (List Char) → PredictionParsed →
    Except (List Char) (List PredictionParsed)
  | 0, _, pred =>
    if pred.action_type ≠ "run_script".toList then Except.ok [pred]
    else Except.error "run_script expansion depth exceeded; possible recursion".toList
  | depthLeft + 1, stack, pred =>
    if pred.action_type ≠ "run_script".toList then Except.ok [pred]
    else
      match parseRunScriptCall pred.raw_action with
      | Except.error e => Except.error e
      | Except.ok (name, path, varsIn) =>
        match (match path with | some t => some t | none => name) with
        | none => Except.error "run_script(...) missing name/path".toList
        | some target =>
          match E.resolveAbs target with
          | Except.error e => Except.error e
          | Except.ok scriptPath =>
            if stack.contains scriptPath then
              Except.error ("circular script include detected: ".toList ++
                List.intercalate " -> ".toList
                  ((stack ++ [scriptPath]).map E.baseName))
            else
              match scriptToPredictions varsIn E.envVars (E.read scriptPath) with
              | Except.error e => Except.error e
              | Except.ok inner =>
                inner.foldlM
                  (fun acc p =>
                    match expandPredictionRecursive E depthLeft
                        (stack ++ [scriptPath]) p with
                    | Except.error e => Except.error e
                    | Except.ok e2 => Except.ok (acc ++ e2))
                  []

/-- `expand_special_predictions` (action_script.py lines 562-582);
`max_expand_depth` defaults to 2 at the call sites. -/
def expandSpecialPredictions (E : ScriptEnv) (preds : List PredictionParsed)
    (maxExpandDepth : Int) : Except (List Char) (List PredictionParsed) :=
  let depth := (max 0 maxExpandDepth).toNat
  preds.foldlM
    (fun acc p =>
      match expandPredictionRecursive E depth [] p with
      | Except.error e => Except.error e
      | Except.ok e2 => Except.ok (acc ++ e2))
    []

/-- `os.path.basename` for forward-slash paths. -/
def baseNameOf (p : List Char) : List Char :=
  (p.reverse.takeWhile (fun c => c != '/')).reverse

/-- The two-file filesystem of the repo's own circular-include test:
`a.txt` includes `b.txt` and vice versa. -/
def cycEnv : ScriptEnv where
  resolveAbs t :=
    if t = "./a.txt".toList then Except.ok "/s/a.txt".toList
    else if t = "./b.txt".toList then Except.ok "/s/b.txt".toList
    else Except.error ("unknown script: ".toList ++ t)
  read p :=
    if p = "/s/a.txt".toList then "include ./b.txt\n".toList
    else if p = "/s/b.txt".toList then "include ./a.txt\n".toList
    else []
  baseName := baseNameOf
  envVars := []

/-- The single `run_script` prediction obtained by compiling `b.txt`
(which includes `a.txt`). -/
def cycPredA : PredictionParsed :=
  (((scriptToPredictions [] [] (cycEnv.read "/s/b.txt".toList)).toOption.getD
    []).head?).getD (fragToPred [])

/-- The single `run_script` prediction obtained by compiling `a.txt`
(which includes `b.txt`). -/
def cycPredB : PredictionParsed :=
  (((scriptToPredictions [] [] (cycEnv.read "/s/a.txt".toList)).toOption.getD
    []).head?).getD (fragToPred [])

/-! ### Scanner and strip lemmas towards claim C7 -/

theorem scanAux_nil (seps : List Char) (buf : List Char) (q : Option Char)
    (d : Nat) : splitScanAux seps [] buf q d = flushPart buf := rfl

theorem scanAux_cons_some (seps : List Char) (c : Char) (rest buf : List Char)
    (q : Char) (d : Nat) :
    splitScanAux seps (c :: rest) buf (some q) d =
      (if c == q then splitScanAux seps rest (buf ++ [c]) none d
       else splitScanAux seps rest (buf ++ [c]) (some q) d) := rfl

theorem scanAux_cons_none (seps : List Char) (c : Char) (rest buf : List Char)
    (d : Nat) :
    splitScanAux seps (c :: rest) buf none d =
      (if c == '\'' || c == '"' then
        splitScanAux seps rest (buf ++ [c]) (some c) d
       else if c == '(' then splitScanAux seps rest (buf ++ [c]) none (d + 1)
       else if c == ')' then splitScanAux seps rest (buf ++ [c]) none (d - 1)
       else if d == 0 && seps.contains c then
        flushPart buf ++ splitScanAux seps rest [] none d
       else splitScanAux seps rest (buf ++ [c]) none d) := rfl

theorem flushPart_ws_append (w b : List Char) (hw : w.all isPyWs = true) :
    flushPart (w ++ b) = flushPart b := by
  unfold flushPart
  have h : pstrip (w ++ b) = pstrip b := by
    unfold pstrip
    rw [lstrip_allWs_append w b hw]
  rw [h]

/-- A buffer prefixed with whitespace scans like the bare buffer: the
whitespace only ever reappears under `pstrip` at a flush. -/
theorem scan_buf_ws (seps w : List Char) (hw : w.all isPyWs = true)
    (input : List Char) :
    ∀ b q d, splitScanAux seps input (w ++ b) q d = splitScanAux seps input b q d := by
  induction input with
  | nil =>
    intro b q d
    rw [scanAux_nil, scanAux_nil, flushPart_ws_append w b hw]
  | cons c rest ih =>
    intro b q d
    cases q with
    | some qc =>
      rw [scanAux_cons_some, scanAux_cons_some]
      by_cases hcq : (c == qc) = true
      · rw [if_pos hcq, if_pos hcq, List.append_assoc]
        exact ih (b ++ [c]) none d
      · rw [if_neg hcq, if_neg hcq, List.append_assoc]
        exact ih (b ++ [c]) (some qc) d
    | none =>
      rw [scanAux_cons_none, scanAux_cons_none]
      by_cases h1 : (c == '\'' || c == '"') = true
      · rw [if_pos h1, if_pos h1, List.append_assoc]
        exact ih (b ++ [c]) (some c) d
      · rw [if_neg h1, if_neg h1]
        by_cases h2 : (c == '(') = true
        · rw [if_pos h2, if_pos h2, List.append_assoc]
          exact ih (b ++ [c]) none (d + 1)
        · rw [if_neg h2, if_neg h2]
          by_cases h3 : (c == ')') = true
          · rw [if_pos h3, if_pos h3, List.append_assoc]
            exact ih (b ++ [c]) none (d - 1)
          · rw [if_neg h3, if_neg h3]
            by_cases h4 : (d == 0 && seps.contains c) = true
            · rw [if_pos h4, if_pos h4, flushPart_ws_append w b hw]
            · rw [if_neg h4, if_neg h4, List.append_assoc]
              exact ih (b ++ [c]) none d

/-- Leading whitespace never affects the top-level split (each part is
stripped before emission, and `\n` only flushes an empty buffer). -/
theorem scanSeps3_lstrip (y : List Char) :
    splitScanAux ['\n', ';', ','] y [] none 0 =
      splitScanAux ['\n', ';', ','] (lstripWs y) [] none 0 := by
  induction y with
  | nil => rfl
  | cons c t ih =>
    by_cases hc : isPyWs c = true
    · have hl : lstripWs (c :: t) = lstripWs t := by
        simp [lstripWs, List.dropWhile_cons, hc]
      rw [hl]
      have step : ∀ c0 : Char, isPyWs c0 = true →
          splitScanAux ['\n', ';', ','] t [c0] none 0 =
            splitScanAux ['\n', ';', ','] t [] none 0 := by
        intro c0 hc0
        exact scan_buf_ws ['\n', ';', ','] [c0] (by simp [hc0]) t [] none 0
      have hc6 : c = ' ' ∨ c = '\t' ∨ c = '\n' ∨ c = '\r' ∨ c = '\x0b' ∨
          c = '\x0c' := by
        unfold isPyWs at hc
        simp only [Bool.or_eq_true, beq_iff_eq] at hc
        tauto
      rcases hc6 with h | h | h | h | h | h <;> subst h <;>
        first
          | exact ih
          | exact (step _ (by decide)).trans ih
    · have hc' : isPyWs c = false := by simpa using hc
      rw [lstrip_cons_nonws c t hc']

theorem rstrip_append_allWs (u w : List Char) (hw : w.all isPyWs = true) :
    rstripWs (u ++ w) = rstripWs u := by
  induction u with
  | nil => simpa using rstrip_allWs w hw
  | cons c u' ih =>
    rw [List.cons_append, rstripWs_cons, ih, rstripWs_cons]

theorem rstrip_append_rstrip (u x : List Char) :
    rstripWs (u ++ rstripWs x) = rstripWs (u ++ x) := by
  obtain ⟨w, hx, hw⟩ := rstrip_decomp x
  conv_rhs => rw [hx]
  rw [← List.append_assoc, rstrip_append_allWs _ w hw]

theorem rstrip_length_le (l : List Char) : (rstripWs l).length ≤ l.length := by
  obtain ⟨w, hl, _⟩ := rstrip_decomp l
  conv_rhs => rw [hl]
  rw [List.length_append]
  exact Nat.le_add_right _ _

theorem rstrip_cons_nonws (c : Char) (t : List Char) (hc : isPyWs c = false) :
    rstripWs (c :: t) = c :: rstripWs t := by
  rw [rstripWs_cons]
  cases hr : rstripWs t with
  | nil => simp [hc]
  | cons d r => rfl

theorem rstrip_last_nonws (x : List Char) (hne : rstripWs x ≠ []) :
    ∃ y d, rstripWs x = y ++ [d] ∧ isPyWs d = false := by
  obtain (h | ⟨y, d, hyd⟩) := (rstripWs x).eq_nil_or_concat
  · exact absurd h hne
  · rw [List.concat_eq_append] at hyd
    refine ⟨y, d, hyd, ?_⟩
    by_contra hd
    have hd' : isPyWs d = true := by simpa using hd
    have h1 : rstripWs (rstripWs x) = rstripWs y := by
      rw [hyd]
      exact rstrip_append_allWs y [d] (by simp [hd'])
    rw [rstrip_idem] at h1
    have h2 : (rstripWs x).length ≤ y.length := by
      rw [h1]
      exact rstrip_length_le y
    rw [hyd, List.length_append] at h2
    simp at h2

theorem lstrip_rstrip_comm (x : List Char) :
    lstripWs (rstripWs x) = rstripWs (lstripWs x) := by
  cases hy : lstripWs x with
  | nil =>
    have hall := lstrip_nil_all_ws x hy
    rw [rstrip_allWs x hall]
    rfl
  | cons c t =>
    have hc : isPyWs c = false := dropWhile_head_false isPyWs x c t hy
    have hdec : x = x.takeWhile isPyWs ++ c :: t := by
      conv_lhs => rw [← List.takeWhile_append_dropWhile (p := isPyWs) (l := x)]
      rw [show x.dropWhile isPyWs = lstripWs x from rfl, hy]
    conv_lhs => rw [hdec]
    rw [rstrip_append_nonws _ c t hc,
      lstrip_allWs_append _ _ (takeWhile_all_ws x),
      lstrip_cons_nonws c _ hc, rstrip_cons_nonws c t hc]

theorem splitTopLevel_eq (s : List Char) :
    splitTopLevel s =
      if pstrip s = [] then []
      else splitScanAux ['\n', ';', ','] (pstrip s) [] none 0 := rfl

/-- Scanning the concrete prefix `swipe left x 10` followed by a newline
flushes exactly that statement. -/
theorem scanP15 (y : List Char) :
    splitScanAux ['\n', ';', ','] ("swipe left x 10\n".toList ++ y) [] none 0 =
      "swipe left x 10".toList :: splitScanAux ['\n', ';', ','] y [] none 0 := rfl

/-- `_split_top_level` peels the leading statement `swipe left x 10`
off any script. -/
theorem splitTopLevel_p16 (x : List Char) :
    splitTopLevel ("swipe left x 10\n".toList ++ x) =
      "swipe left x 10".toList :: splitTopLevel x := by
  have hlstrip : lstripWs ("swipe left x 10\n".toList ++ x) =
      "swipe left x 10\n".toList ++ x :=
    lstrip_cons_nonws 's' ("wipe left x 10\n".toList ++ x) (by decide)
  cases hrx : rstripWs x with
  | nil =>
    have h1 : rstripWs ("swipe left x 10\n".toList ++ x) =
        "swipe left x 10".toList := by
      rw [← rstrip_append_rstrip _ x, hrx, List.append_nil]
      rfl
    have h2 : pstrip ("swipe left x 10\n".toList ++ x) =
        "swipe left x 10".toList := by
      unfold pstrip
      rw [hlstrip, h1]
    have hx0 : pstrip x = [] := by
      unfold pstrip
      rw [← lstrip_rstrip_comm, hrx]
      rfl
    rw [splitTopLevel_eq, splitTopLevel_eq, h2, hx0,
      if_neg (by decide : ¬("swipe left x 10".toList = ([] : List Char))),
      if_pos rfl]
    rfl
  | cons c0 t0 =>
    have hne : rstripWs x ≠ [] := by
      rw [hrx]
      simp
    obtain ⟨y, d, hyd, hd⟩ := rstrip_last_nonws x hne
    have h1 : rstripWs ("swipe left x 10\n".toList ++ x) =
        "swipe left x 10\n".toList ++ rstripWs x := by
      rw [← rstrip_append_rstrip _ x, hyd, ← List.append_assoc,
        rstrip_append_nonws _ d [] hd]
      rfl
    have h2 : pstrip ("swipe left x 10\n".toList ++ x) =
        "swipe left x 10\n".toList ++ rstripWs x := by
      unfold pstrip
      rw [hlstrip, h1]
    have h4 : splitScanAux ['\n', ';', ','] (rstripWs x) [] none 0 =
        splitScanAux ['\n', ';', ','] (pstrip x) [] none 0 := by
      unfold pstrip
      rw [← lstrip_rstrip_comm]
      exact scanSeps3_lstrip (rstripWs x)
    have hx_ne : pstrip x ≠ [] := by
      intro h0
      unfold pstrip at h0
      rw [← lstrip_rstrip_comm] at h0
      have h5 := rstrip_allWs _ (lstrip_nil_all_ws _ h0)
      rw [rstrip_idem] at h5
      exact hne h5
    rw [splitTopLevel_eq, splitTopLevel_eq, h2, if_neg (by simp), if_neg hx_ne,
      scanP15 (rstripWs x), h4]

/-- `${...}` substitution never fires inside `swipe left x 10\n`, so
rendering commutes with that prefix. -/
theorem renderTemplate_p16 (vars env : List (List Char × List Char))
    (r : List Char) :
    renderTemplate vars env ("swipe left x 10\n".toList ++ r) =
      "swipe left x 10\n".toList ++ renderTemplate vars env r := rfl

theorem explodePieces_p15 :
    explodePieces "swipe left x 10".toList = ["swipe left x 10".toList] := rfl

theorem expandStmt_p15 :
    expandStmt "swipe left x 10".toList =
      Except.ok (List.replicate 10 "swipe(direction=\"left\")".toList) := rfl

theorem expandAll_p15_cons (E : List (List Char)) :
    expandAll ("swipe left x 10".toList :: E) =
      Except.bind (expandAll E)
        (fun cs => Except.ok
          (List.replicate 10 "swipe(direction=\"left\")".toList ++ cs)) := rfl

/-! ### Claim C1 -/

/-- Counterexample to C1: at the default `max_expand_depth = 2`, the cyclic
pair `a.txt` ↔ `b.txt` fails with the depth-exceeded error, not the
cycle-specific circular-include error — the depth check at the top of
`_expand_prediction_recursive` fires before the stack is deep enough to
revisit `a.txt`. -/
theorem claim_C1_counterexample :
    ∃ preds,
      scriptToPredictions [] [] "run_script(path='./a.txt')".toList =
        Except.ok preds ∧
      expandSpecialPredictions cycEnv preds 2 =
        Except.error
          "run_script expansion depth exceeded; possible recursion".toList :=
  ⟨_, rfl, rfl⟩

/-- C1 (amended): for every pair of scripts that include each other (their
compiled forms each yield exactly one `run_script` prediction resolving to
the other's path), expansion always terminates (the model is a total
function of the clamped depth), and for every depth limit of at least 3 it
fails with the cycle-specific error naming the chain
`A -> B -> A` by basename; for depth limits of at most 2 — including the
default 2 — it fails with the depth-exceeded error instead. -/
theorem claim_C1_circular_include (E : ScriptEnv)
    (predA predB : PredictionParsed) (nA nB : Option (List Char))
    (ta tb pa pb : List Char) (va vb : List (List Char × List Char))
    (hAty : predA.action_type = "run_script".toList)
    (hBty : predB.action_type = "run_script".toList)
    (hAcall : parseRunScriptCall predA.raw_action = Except.ok (nA, some ta, va))
    (hBcall : parseRunScriptCall predB.raw_action = Except.ok (nB, some tb, vb))
    (hresA : E.resolveAbs ta = Except.ok pa)
    (hresB : E.resolveAbs tb = Except.ok pb)
    (hab : pa ≠ pb)
    (hreadA : scriptToPredictions va E.envVars (E.read pa) = Except.ok [predB])
    (hreadB : scriptToPredictions vb E.envVars (E.read pb) = Except.ok [predA])
    (depth : Int) :
    (3 ≤ depth →
      expandSpecialPredictions E [predA] depth =
        Except.error ("circular script include detected: ".toList ++
          List.intercalate " -> ".toList
            ([pa, pb, pa].map E.baseName))) ∧
    (depth ≤ 2 →
      expandSpecialPredictions E [predA] depth =
        Except.error
          "run_script expansion depth exceeded; possible recursion".toList) := by
  have hAne : ¬(predA.action_type ≠ "run_script".toList) := by
    rw [hAty]
    exact fun h => h rfl
  have hBne : ¬(predB.action_type ≠ "run_script".toList) := by
    rw [hBty]
    exact fun h => h rfl
  have hA0 : ∀ st, expandPredictionRecursive E 0 st predA =
      Except.error
        "run_script expansion depth exceeded; possible recursion".toList := by
    intro st
    simp only [expandPredictionRecursive]
    rw [if_neg hAne]
  have hB0 : ∀ st, expandPredictionRecursive E 0 st predB =
      Except.error
        "run_script expansion depth exceeded; possible recursion".toList := by
    intro st
    simp only [expandPredictionRecursive]
    rw [if_neg hBne]
  have hA1 : ∀ d (st : List (List Char)), st.contains pa = false →
      expandPredictionRecursive E (d + 1) st predA =
        (match expandPredictionRecursive E d (st ++ [pa]) predB with
         | Except.error e => Except.error e
         | Except.ok e2 => Except.ok ([] ++ e2)) := by
    intro d st hst
    simp only [expandPredictionRecursive]
    rw [if_neg hAne, hAcall]
    dsimp only
    rw [hresA]
    dsimp only
    rw [if_neg (show ¬(st.contains pa = true) from by rw [hst]; simp), hreadA]
    dsimp only
    simp only [List.foldlM]
    cases hE : expandPredictionRecursive E d (st ++ [pa]) predB with
    | error e => rfl
    | ok e2 => rfl
  have hB1 : ∀ d (st : List (List Char)), st.contains pb = false →
      expandPredictionRecursive E (d + 1) st predB =
        (match expandPredictionRecursive E d (st ++ [pb]) predA with
         | Except.error e => Except.error e
         | Except.ok e2 => Except.ok ([] ++ e2)) := by
    intro d st hst
    simp only [expandPredictionRecursive]
    rw [if_neg hBne, hBcall]
    dsimp only
    rw [hresB]
    dsimp only
    rw [if_neg (show ¬(st.contains pb = true) from by rw [hst]; simp), hreadB]
    dsimp only
    simp only [List.foldlM]
    cases hE : expandPredictionRecursive E d (st ++ [pb]) predA with
    | error e => rfl
    | ok e2 => rfl
  have hAcirc : ∀ d (st : List (List Char)), st.contains pa = true →
      expandPredictionRecursive E (d + 1) st predA =
        Except.error ("circular script include detected: ".toList ++
          List.intercalate " -> ".toList ((st ++ [pa]).map E.baseName)) := by
    intro d st hst
    simp only [expandPredictionRecursive]
    rw [if_neg hAne, hAcall]
    dsimp only
    rw [hresA]
    dsimp only
    rw [if_pos hst]
  have hcontA : ([] : List (List Char)).contains pa = false := rfl
  have hcontB : (([] : List (List Char)) ++ [pa]).contains pb = false := by
    simp [hab.symm]
  have hcontA2 : ((([] : List (List Char)) ++ [pa]) ++ [pb]).contains pa = true := by
    simp
  constructor
  · intro h3
    have hmax : max 0 depth = depth := max_eq_right (by linarith)
    obtain ⟨m, hm⟩ : ∃ m, (max 0 depth).toNat = m + 3 := by
      refine ⟨(max 0 depth).toNat - 3, ?_⟩
      rw [hmax]
      omega
    have f3 : expandPredictionRecursive E (m + 1) (([] ++ [pa]) ++ [pb]) predA =
        Except.error ("circular script include detected: ".toList ++
          List.intercalate " -> ".toList
            (((([] ++ [pa]) ++ [pb]) ++ [pa]).map E.baseName)) :=
      hAcirc m (([] ++ [pa]) ++ [pb]) hcontA2
    have f2 : expandPredictionRecursive E (m + 2) ([] ++ [pa]) predB =
        (match expandPredictionRecursive E (m + 1) (([] ++ [pa]) ++ [pb]) predA with
         | Except.error e => Except.error e
         | Except.ok e2 => Except.ok ([] ++ e2)) :=
      hB1 (m + 1) ([] ++ [pa]) hcontB
    have f1 : expandPredictionRecursive E (m + 3) [] predA =
        (match expandPredictionRecursive E (m + 2) ([] ++ [pa]) predB with
         | Except.error e => Except.error e
         | Except.ok e2 => Except.ok ([] ++ e2)) :=
      hA1 (m + 2) [] hcontA
    rw [f3] at f2
    rw [f2] at f1
    simp only [expandSpecialPredictions, List.foldlM]
    rw [hm, f1]
    rfl
  · intro h2
    have hd : (max 0 depth).toNat = 0 ∨ (max 0 depth).toNat = 1 ∨
        (max 0 depth).toNat = 2 := by omega
    simp only [expandSpecialPredictions, List.foldlM]
    rcases hd with hd | hd | hd <;> rw [hd]
    · rw [hA0]
      rfl
    · have f2 : expandPredictionRecursive E 0 ([] ++ [pa]) predB =
          Except.error
            "run_script expansion depth exceeded; possible recursion".toList :=
        hB0 ([] ++ [pa])
      have f1 : expandPredictionRecursive E 1 [] predA =
          (match expandPredictionRecursive E 0 ([] ++ [pa]) predB with
           | Except.error e => Except.error e
           | Except.ok e2 => Except.ok ([] ++ e2)) :=
        hA1 0 [] hcontA
      rw [f2] at f1
      rw [f1]
      rfl
    · have f3 : expandPredictionRecursive E 0 (([] ++ [pa]) ++ [pb]) predA =
          Except.error
            "run_script expansion depth exceeded; possible recursion".toList :=
        hA0 (([] ++ [pa]) ++ [pb])
      have f2 : expandPredictionRecursive E 1 ([] ++ [pa]) predB =
          (match expandPredictionRecursive E 0 (([] ++ [pa]) ++ [pb]) predA with
           | Except.error e => Except.error e
           | Except.ok e2 => Except.ok ([] ++ e2)) :=
        hB1 0 ([] ++ [pa]) hcontB
      have f1 : expandPredictionRecursive E 2 [] predA =
          (match expandPredictionRecursive E 1 ([] ++ [pa]) predB with
           | Except.error e => Except.error e
           | Except.ok e2 => Except.ok ([] ++ e2)) :=
        hA1 1 [] hcontA
      rw [f3] at f2
      rw [f2] at f1
      rw [f1]
      rfl

/-- Closed witness for the amended C1 on the concrete `a.txt` ↔ `b.txt`
filesystem: depth 3 yields the circular-include error naming
`a.txt -> b.txt -> a.txt`, depth 2 the depth-exceeded error. -/
theorem claim_C1_circular_include_witness :
    expandSpecialPredictions cycEnv [cycPredA] 3 =
      Except.error ("circular script include detected: ".toList ++
        List.intercalate " -> ".toList
          (["/s/a.txt".toList, "/s/b.txt".toList, "/s/a.txt".toList].map
            cycEnv.baseName)) ∧
    expandSpecialPredictions cycEnv [cycPredA] 2 =
      Except.error
        "run_script expansion depth exceeded; possible recursion".toList :=
  ⟨(claim_C1_circular_include cycEnv cycPredA cycPredB none none
      "./a.txt".toList "./b.txt".toList "/s/a.txt".toList "/s/b.txt".toList
      [] [] (by rfl) (by rfl) (by rfl) (by rfl) (by rfl) (by rfl) (by decide)
      (by rfl) (by rfl) 3).1 (by decide),
   (claim_C1_circular_include cycEnv cycPredA cycPredB none none
      "./a.txt".toList "./b.txt".toList "/s/a.txt".toList "/s/b.txt".toList
      [] [] (by rfl) (by rfl) (by rfl) (by rfl) (by rfl) (by rfl) (by decide)
      (by rfl) (by rfl) 2).2 (by decide)⟩

/-- C7: For every variable map and environment, compiling the statement
`swipe left x 10` yields exactly 10 identical `swipe(direction="left")`
calls in order; and for every script `swipe left x 10\n` followed by
further statements, the compiled output is exactly those 10 calls followed
immediately by the compilation of the remaining statements. -/
theorem claim_C7_swipe_left_x10 (vars env : List (List Char × List Char))
    (rest : List Char) :
    scriptToActionCalls vars env "swipe left x 10".toList =
      Except.ok (List.replicate 10 "swipe(direction=\"left\")".toList) ∧
    (∀ calls,
      scriptToActionCalls vars env ("swipe left x 10\n".toList ++ rest) =
        Except.ok calls →
      ∃ tail, scriptToActionCalls vars env rest = Except.ok tail ∧
        calls = List.replicate 10 "swipe(direction=\"left\")".toList ++ tail) := by
  constructor
  · rfl
  · intro calls h
    have hJ : ∀ (L : List (List Char)),
        (("swipe left x 10".toList :: L).map explodePieces).join =
          "swipe left x 10".toList :: (L.map explodePieces).join := fun L => rfl
    simp only [scriptToActionCalls] at h ⊢
    rw [renderTemplate_p16 vars env rest, splitTopLevel_p16, hJ,
      expandAll_p15_cons] at h
    cases hE : expandAll
        (((splitTopLevel (renderTemplate vars env rest)).map explodePieces).join) with
    | error e =>
      rw [hE] at h
      simp [Except.bind, Bind.bind] at h
    | ok out =>
      rw [hE] at h
      have h2 : Except.ok
          ((List.replicate 10 "swipe(direction=\"left\")".toList ++ out).filter
            (fun x => !(pstrip x).isEmpty)) = Except.ok calls := h
      injection h2 with h3
      refine ⟨out.filter (fun x => !(pstrip x).isEmpty), ?_, ?_⟩
      · rfl
      · rw [← h3, List.filter_append,
          show (List.replicate 10 "swipe(direction=\"left\")".toList).filter
            (fun x => !(pstrip x).isEmpty) =
            List.replicate 10 "swipe(direction=\"left\")".toList from rfl]

/-- Closed witness for C7: the script `swipe left x 10\nwait` compiles to
the 10 swipes followed immediately by `wait()`. -/
theorem claim_C7_swipe_left_x10_witness :
    ∃ tail, scriptToActionCalls [] [] "wait".toList = Except.ok tail ∧
      ((List.replicate 10 "swipe(direction=\"left\")".toList ++ ["wait()".toList])
        : List (List Char)) =
        List.replicate 10 "swipe(direction=\"left\")".toList ++ tail :=
  (claim_C7_swipe_left_x10 [] [] "wait".toList).2
    (List.replicate 10 "swipe(direction=\"left\")".toList ++ ["wait()".toList])
    (by rfl)

/-! ### Claim C5: compile/re-parse round trip -/

/-- The quote/paren state of the top-level scanner after reading a string,
`none` when a top-level separator flush occurred along the way. -/
def scanState (seps : List Char) :
    List Char → Option Char × Nat → Option (Option Char × Nat)
  | [], st => some st
  | c :: rest, (some q, d) =>
    scanState seps rest (if c == q then none else some q, d)
  | c :: rest, (none, d) =>
    if c == '\'' || c == '"' then scanState seps rest (some c, d)
    else if c == '(' then scanState seps rest (none, d + 1)
    else if c == ')' then scanState seps rest (none, d - 1)
    else if d == 0 && seps.contains c then none
    else scanState seps rest (none, d)

/-- A compiled call string that survives the re-parse pipeline intact:
non-empty and stripped, free of `Action:` markers, scanner-neutral for the
`;`/newline split (no top-level separator, balanced quotes and parens),
and accepted by `_parse_action_call` with its leading word as the action
type. -/
def GoodCall (c : List Char) : Bool :=
  (!c.isEmpty) && (pstrip c == c) && (!hasMarker c) &&
  (decide (scanState [';', '\n'] c (none, 0) = some (none, 0))) &&
  (match parseActionCall c with
   | Except.ok fk => fk.1 == headWordRun c
   | Except.error _ => false)

theorem isMarkerHead_head_ne (c : Char) (l : List Char) (hc : c ≠ 'A') :
    isMarkerHead (c :: l) = false := by
  cases hm : isMarkerHead (c :: l) with
  | false => rfl
  | true =>
    exfalso
    rcases (isMarkerHead_iff _).mp hm with h | h
    · have h2 : c :: List.take 6 l = "Action:".toList := h
      injection h2 with h1 _
      exact hc h1
    · have h2 : c :: List.take 6 l = "Action：".toList := h
      injection h2 with h1 _
      exact hc h1

/-- A marker never straddles a newline: its 7-character window would have
to contain the `\n`. -/
theorem isMarkerHead_nl (u b : List Char) (hlen : u.length < 7) :
    isMarkerHead (u ++ '\n' :: b) = false := by
  cases hm : isMarkerHead (u ++ '\n' :: b) with
  | false => rfl
  | true =>
    exfalso
    have hu7 : (u ++ '\n' :: b).take 7 = u ++ '\n' :: b.take (6 - u.length) := by
      rw [List.take_append_eq_append_take, List.take_of_length_le (le_of_lt hlen)]
      congr 1
      have h7 : 7 - u.length = (6 - u.length) + 1 := by omega
      rw [h7, List.take_succ_cons]
    rcases (isMarkerHead_iff _).mp hm with h | h
    · rw [hu7] at h
      have hd := congrArg (List.drop u.length) h
      rw [List.drop_left] at hd
      have hk : u.length < 7 := hlen
      generalize hu : u.length = k at hd hk
      have hh : ("Action:".toList.drop k).head? = some '\n' := by
        rw [← hd]
        rfl
      interval_cases k <;> exact absurd hh (by decide)
    · rw [hu7] at h
      have hd := congrArg (List.drop u.length) h
      rw [List.drop_left] at hd
      have hk : u.length < 7 := hlen
      generalize hu : u.length = k at hd hk
      have hh : ("Action：".toList.drop k).head? = some '\n' := by
        rw [← hd]
        rfl
      interval_cases k <;> exact absurd hh (by decide)

theorem hasMarker_nl_append (a b : List Char) (ha : hasMarker a = false)
    (hb : hasMarker b = false) : hasMarker (a ++ '\n' :: b) = false := by
  induction a with
  | nil =>
    rw [List.nil_append, hasMarker_cons, isMarkerHead_head_ne '\n' b (by decide), hb]
    rfl
  | cons c a' ih =>
    simp only [hasMarker_cons, Bool.or_eq_false_iff] at ha
    obtain ⟨ha1, ha2⟩ := ha
    rw [List.cons_append, hasMarker_cons, ih ha2]
    suffices hI : isMarkerHead (c :: (a' ++ '\n' :: b)) = false by
      rw [hI]
      rfl
    by_cases hlen : (c :: a').length < 7
    · exact isMarkerHead_nl (c :: a') b hlen
    · push_neg at hlen
      have hcongr : (c :: (a' ++ '\n' :: b)).take 7 = (c :: a').take 7 := by
        rw [show (c :: (a' ++ '\n' :: b)) = (c :: a') ++ '\n' :: b from rfl]
        exact List.take_append_of_le_length hlen
      unfold isMarkerHead
      rw [hcongr]
      exact ha1

theorem stripped_head_nonws (c : List Char) (hc : pstrip c = c) (hne : c ≠ []) :
    ∃ h t, c = h :: t ∧ isPyWs h = false := by
  cases hl : lstripWs c with
  | nil =>
    exfalso
    apply hne
    rw [← hc]
    unfold pstrip
    rw [hl]
    rfl
  | cons h t =>
    have hh : isPyWs h = false := dropWhile_head_false isPyWs c h t hl
    refine ⟨h, rstripWs t, ?_, hh⟩
    conv_lhs => rw [← hc]
    unfold pstrip
    rw [hl, rstrip_cons_nonws h t hh]

theorem stripped_last_nonws (c : List Char) (hc : pstrip c = c) (hne : c ≠ []) :
    ∃ y d, c = y ++ [d] ∧ isPyWs d = false := by
  have hne2 : rstripWs (lstripWs c) ≠ [] := by
    rw [show rstripWs (lstripWs c) = pstrip c from rfl, hc]
    exact hne
  obtain ⟨y, d, hyd, hd⟩ := rstrip_last_nonws (lstripWs c) hne2
  refine ⟨y, d, ?_, hd⟩
  rw [← hc]
  exact hyd

theorem joinNl_one (a : List Char) : joinNl [a] = a := by
  simp [joinNl, List.intercalate]

theorem joinNl_pair (a b : List Char) (l : List (List Char)) :
    joinNl (a :: b :: l) = a ++ '\n' :: joinNl (b :: l) := rfl

theorem hasMarker_join (calls : List (List Char))
    (hall : ∀ c ∈ calls, hasMarker c = false) :
    hasMarker (joinNl calls) = false := by
  induction calls with
  | nil => rfl
  | cons c rest ih =>
    cases rest with
    | nil =>
      rw [joinNl_one]
      exact hall c (List.mem_cons_self c [])
    | cons r1 rs =>
      rw [joinNl_pair]
      exact hasMarker_nl_append c (joinNl (r1 :: rs))
        (hall c (List.mem_cons_self c (r1 :: rs)))
        (ih (fun x hx => hall x (List.mem_cons_of_mem c hx)))

theorem join_pstrip (calls : List (List Char)) (hne : calls ≠ [])
    (hall : ∀ c ∈ calls, pstrip c = c ∧ c ≠ []) :
    pstrip (joinNl calls) = joinNl calls ∧ joinNl calls ≠ [] := by
  induction calls with
  | nil => exact absurd rfl hne
  | cons c rest ih =>
    have hc := hall c (List.mem_cons_self c rest)
    obtain ⟨h, t, hct, hh⟩ := stripped_head_nonws c hc.1 hc.2
    cases rest with
    | nil =>
      rw [joinNl_one]
      exact ⟨hc.1, hc.2⟩
    | cons r1 rs =>
      have hrest := ih (by simp) (fun x hx => hall x (List.mem_cons_of_mem c hx))
      rw [joinNl_pair]
      constructor
      · unfold pstrip
        rw [hct, List.cons_append, lstrip_cons_nonws h _ hh]
        obtain ⟨y, d, hyd, hd⟩ :=
          stripped_last_nonws (joinNl (r1 :: rs)) hrest.1 hrest.2
        rw [hyd]
        have hassoc : h :: (t ++ '\n' :: (y ++ [d])) =
            (h :: (t ++ '\n' :: y)) ++ [d] := by
          simp
        rw [hassoc, rstrip_append_nonws _ d [] hd]
        rfl
      · rw [hct]
        simp

/-- Scanning a separator-free balanced chunk just extends the buffer and
updates the state. -/
theorem scan_through (seps : List Char) (c : List Char) :
    ∀ (r buf : List Char) (q : Option Char) (d : Nat)
      (q2 : Option Char) (d2 : Nat),
      scanState seps c (q, d) = some (q2, d2) →
      splitScanAux seps (c ++ r) buf q d = splitScanAux seps r (buf ++ c) q2 d2 := by
  induction c with
  | nil =>
    intro r buf q d q2 d2 hs
    injection hs with hs
    injection hs with hs1 hs2
    rw [List.nil_append, List.append_nil, hs1, hs2]
  | cons c0 ct ih =>
    intro r buf q d q2 d2 hs
    cases q with
    | some qc =>
      rw [List.cons_append, scanAux_cons_some]
      simp only [scanState] at hs
      by_cases hcq : (c0 == qc) = true
      · rw [if_pos hcq]
        rw [if_pos hcq] at hs
        rw [ih r (buf ++ [c0]) none d q2 d2 hs, List.append_assoc]
        rfl
      · rw [if_neg hcq]
        rw [if_neg hcq] at hs
        rw [ih r (buf ++ [c0]) (some qc) d q2 d2 hs, List.append_assoc]
        rfl
    | none =>
      rw [List.cons_append, scanAux_cons_none]
      simp only [scanState] at hs
      by_cases h1 : (c0 == '\'' || c0 == '"') = true
      · rw [if_pos h1]
        rw [if_pos h1] at hs
        rw [ih r (buf ++ [c0]) (some c0) d q2 d2 hs, List.append_assoc]
        rfl
      · rw [if_neg h1]
        rw [if_neg h1] at hs
        by_cases h2 : (c0 == '(') = true
        · rw [if_pos h2]
          rw [if_pos h2] at hs
          rw [ih r (buf ++ [c0]) none (d + 1) q2 d2 hs, List.append_assoc]
          rfl
        · rw [if_neg h2]
          rw [if_neg h2] at hs
          by_cases h3 : (c0 == ')') = true
          · rw [if_pos h3]
            rw [if_pos h3] at hs
            rw [ih r (buf ++ [c0]) none (d - 1) q2 d2 hs, List.append_assoc]
            rfl
          · rw [if_neg h3]
            rw [if_neg h3] at hs
            by_cases h4 : (d == 0 && seps.contains c0) = true
            · rw [if_pos h4] at hs
              cases hs
            · rw [if_neg h4]
              rw [if_neg h4] at hs
              rw [ih r (buf ++ [c0]) none d q2 d2 hs, List.append_assoc]
              rfl

/-- The `;`/newline scanner maps a newline-joined list of good calls back
to exactly that list. -/
theorem scanCalls (calls : List (List Char)) (hne : calls ≠ [])
    (hall : ∀ c ∈ calls, (pstrip c = c ∧ c ≠ []) ∧
      scanState [';', '\n'] c (none, 0) = some (none, 0)) :
    splitScanAux [';', '\n'] (joinNl calls) [] none 0 = calls := by
  induction calls with
  | nil => exact absurd rfl hne
  | cons c rest ih =>
    have hc := hall c (List.mem_cons_self c rest)
    cases rest with
    | nil =>
      rw [joinNl_one]
      have h0 := scan_through [';', '\n'] c [] [] none 0 none 0 hc.2
      rw [List.append_nil] at h0
      rw [h0, scanAux_nil]
      show (if pstrip ([] ++ c) = [] then [] else [pstrip ([] ++ c)]) = [c]
      rw [List.nil_append, hc.1.1, if_neg hc.1.2]
    | cons r1 rs =>
      rw [joinNl_pair]
      have h0 := scan_through [';', '\n'] c ('\n' :: joinNl (r1 :: rs)) []
        none 0 none 0 hc.2
      rw [h0, scanAux_cons_none]
      rw [if_neg (by decide), if_neg (by decide), if_neg (by decide),
        if_pos (by decide)]
      rw [ih (by simp) (fun x hx => hall x (List.mem_cons_of_mem c hx))]
      show (if pstrip ([] ++ c) = [] then [] else [pstrip ([] ++ c)]) ++
        (r1 :: rs) = c :: r1 :: rs
      rw [List.nil_append, hc.1.1, if_neg hc.1.2]
      rfl

theorem pySplitActions_eq (s : List Char) :
    pySplitActions s =
      (if pstrip s = [] then []
       else (splitScanAux [';', '\n'] (pstrip s) [] none 0).filter
         (fun x => !(pstrip x).isEmpty)) := rfl

/-- Counterexample to C5: the script `type Action: x` compiles successfully
to the single call `type(content="Action: x")`, but re-parsing the compiled
call yields one `error_env` action — not a `type` action — because the
quoted content smuggles a second `Action:` marker into the joined text. -/
theorem claim_C5_counterexample :
    ∃ calls, scriptToActionCalls [] [] "type Action: x".toList =
        Except.ok calls ∧
      calls = ["type(content=\"Action: x\")".toList] ∧
      (parsePredictions ("Action: ".toList ++ joinNl calls)).map
          PredictionParsed.action_type = ["error_env".toList] :=
  ⟨_, rfl, rfl, rfl⟩

/-- C5 (amended): for every script text whose successful compilation yields
only good calls — each non-empty, stripped, free of `Action:` markers,
scanner-neutral (no top-level `;`/newline, balanced quotes/parens) and
accepted by the parser with its leading word as type — re-parsing the
newline-joined calls yields exactly one action per call, in order, whose
type is that call's leading name. -/
theorem claim_C5_compile_reparse (vars env : List (List Char × List Char))
    (text : List Char) (calls : List (List Char))
    (hc : scriptToActionCalls vars env text = Except.ok calls)
    (hne : calls ≠ [])
    (hgood : ∀ c ∈ calls, GoodCall c = true) :
    (parsePredictions ("Action: ".toList ++ joinNl calls)).map
      PredictionParsed.action_type = calls.map headWordRun := by
  have hunpack : ∀ c ∈ calls, ((pstrip c = c ∧ c ≠ []) ∧
      hasMarker c = false ∧
      scanState [';', '\n'] c (none, 0) = some (none, 0)) ∧
      ∃ kws, parseActionCall c = Except.ok (headWordRun c, kws) := by
    intro c hcm
    have hg := hgood c hcm
    simp only [GoodCall, Bool.and_eq_true, Bool.not_eq_true', beq_iff_eq,
      decide_eq_true_eq] at hg
    obtain ⟨⟨⟨⟨h1, h2⟩, h3⟩, h4⟩, h5⟩ := hg
    refine ⟨⟨⟨h2, by simpa using h1⟩, h3, h4⟩, ?_⟩
    cases hp : parseActionCall c with
    | error e =>
      rw [hp] at h5
      exact absurd h5 (by simp)
    | ok fk =>
      rw [hp] at h5
      have h6 : (fk.1 == headWordRun c) = true := h5
      have h7 : fk.1 = headWordRun c := eq_of_beq h6
      refine ⟨fk.2, ?_⟩
      rw [← h7]
  have hJ := join_pstrip calls hne (fun c h => (hunpack c h).1.1)
  have hM : hasMarker (joinNl calls) = false :=
    hasMarker_join calls (fun c h => (hunpack c h).1.2.1)
  have hsp : pstrip (' ' :: joinNl calls) = joinNl calls := by
    unfold pstrip
    have hws : isPyWs ' ' = true := by decide
    rw [show lstripWs (' ' :: joinNl calls) = lstripWs (joinNl calls) from by
      simp [lstripWs, List.dropWhile_cons, hws]]
    exact hJ.1
  have hextract : extractActionStr ("Action: ".toList ++ joinNl calls) =
      joinNl calls := by
    have h1 : hasMarker (' ' :: joinNl calls) = false := by
      rw [hasMarker_cons, isMarkerHead_head_ne ' ' _ (by decide), hM]
      rfl
    have h2 : extractActionStr (([] : List Char) ++ "Action:".toList ++
        (' ' :: joinNl calls)) = pstrip (' ' :: joinNl calls) :=
      extract_last_section [] (' ' :: joinNl calls) h1
    rw [hsp] at h2
    exact h2
  have hsplit : pySplitActions (joinNl calls) = calls := by
    rw [pySplitActions_eq, hJ.1, if_neg hJ.2,
      scanCalls calls hne (fun c h => ⟨(hunpack c h).1.1, (hunpack c h).1.2.2⟩)]
    exact List.filter_eq_self.mpr
      (fun c hcm => by
        have h := (hunpack c hcm).1.1
        rw [h.1]
        simpa using h.2)
  unfold parsePredictions
  rw [hextract, if_neg hJ.2, hsplit, List.map_map]
  refine List.map_congr_left (fun c hcm => ?_)
  obtain ⟨hstrip, kws, hp⟩ : (pstrip c = c ∧ c ≠ []) ∧
      ∃ kws, parseActionCall c = Except.ok (headWordRun c, kws) :=
    ⟨(hunpack c hcm).1.1, (hunpack c hcm).2⟩
  show (fragToPred c).action_type = headWordRun c
  unfold fragToPred
  rw [hstrip.1, hp]

/-- Closed witness for the amended C5: the script
`swipe left x 2\nsleep 50ms\nwait` compiles to four good calls whose
re-parse gives exactly the types `swipe, swipe, sleep, wait`. -/
theorem claim_C5_compile_reparse_witness :
    (parsePredictions ("Action: ".toList ++ joinNl
      ["swipe(direction=\"left\")".toList, "swipe(direction=\"left\")".toList,
       "sleep(ms=50)".toList, "wait()".toList])).map
        PredictionParsed.action_type =
      (["swipe(direction=\"left\")".toList, "swipe(direction=\"left\")".toList,
        "sleep(ms=50)".toList, "wait()".toList] : List (List Char)).map
        headWordRun :=
  claim_C5_compile_reparse [] [] "swipe left x 2\nsleep 50ms\nwait".toList
    ["swipe(direction=\"left\")".toList, "swipe(direction=\"left\")".toList,
     "sleep(ms=50)".toList, "wait()".toList]
    (by rfl) (by simp) (by decide)

/-- C10: For every script text and variable map (and environment), a
successful `script_to_predictions` run never contains an `error_env`
action; moreover (when the compiled call list is non-empty) the result is
exactly the re-parsed prediction list with the `error_env` entries
filtered out — a compiled call that fails to re-parse is silently dropped
rather than surfaced or raised. -/
theorem claim_C10_no_error_env (vars env : List (List Char × List Char))
    (text : List Char) (preds : List PredictionParsed)
    (h : scriptToPredictions vars env text = Except.ok preds) :
    (∀ p ∈ preds, p.action_type ≠ "error_env".toList) ∧
    (∀ calls, scriptToActionCalls vars env text = Except.ok calls → calls ≠ [] →
      preds = (parsePredictions ("Action: ".toList ++ joinNl calls)).filter
        (fun p => p.action_type ≠ "error_env".toList)) := by
  unfold scriptToPredictions at h
  cases hc : scriptToActionCalls vars env text with
  | error e => rw [hc] at h; exact absurd h (by simp [Except.map])
  | ok calls =>
    rw [hc] at h
    simp only [Except.map, Except.ok.injEq] at h
    constructor
    · intro p hp
      by_cases hemp : calls.isEmpty
      · rw [if_pos hemp] at h
        rw [← h] at hp
        exact absurd hp (List.not_mem_nil p)
      · rw [if_neg hemp] at h
        rw [← h] at hp
        exact of_decide_eq_true (List.mem_filter.mp hp).2
    · intro calls2 hc2 hne
      injection hc2 with h2
      subst h2
      rw [if_neg (by simpa [List.isEmpty_iff] using hne)] at h
      exact h.symm

/-- Closed witness for C10 on the script `type Action: x`:
the single compiled call `type(content="Action: x")` fails to re-parse
(its content smuggles a second `Action:` marker), so the prediction list
is empty — the failure is dropped, not surfaced. -/
theorem claim_C10_no_error_env_witness :
    (∀ p ∈ ([] : List PredictionParsed), p.action_type ≠ "error_env".toList) ∧
    (∀ calls, scriptToActionCalls [] [] "type Action: x".toList = Except.ok calls →
      calls ≠ [] →
      ([] : List PredictionParsed) =
        (parsePredictions ("Action: ".toList ++ joinNl calls)).filter
          (fun p => p.action_type ≠ "error_env".toList)) :=
  claim_C10_no_error_env [] [] "type Action: x".toList [] (by rfl)

end IphoneClaw
